import Mathlib

/-!
partdiff (blatt_6/pde/partdiff.c): multi-threaded Jacobi relaxation.

Shallow embedding of the solver core of `partdiff.c`.

* `double` values are modelled by the elements of an arbitrary linearly ordered field `α`
  (exact arithmetic, for instance `ℚ`); `sin` and the constant `M_PI` are parameters.
* `int` and `uint64_t` values are natural numbers.  The only counter that could wrap,
  `stat_iteration`, is incremented modulo `2 ^ 64`; all other integer values are bounded by
  `N + 1` respectively by the value they start from.
* A three-dimensional array `Matrix[m][i][j]` is a function `Nat → Nat → Nat → α`.
* The threads of one solve are modelled round-synchronously: in every round all threads run the
  part of the loop body before the first barrier, then all threads run the part after it.  The
  threads of a phase run in thread order; `round_in_order_eq` shows that every other order
  yields the same world.
-/

namespace Partdiff

/-! ## Constants (lines 48-56) -/

def MAX_INTERLINES : Nat := 10240
def MAX_ITERATION : Nat := 200000
def MAX_THREADS : Nat := 1024
def METH_GAUSS_SEIDEL : Nat := 1
def METH_JACOBI : Nat := 2
def FUNC_F0 : Nat := 1
def FUNC_FPISIN : Nat := 2
def TERM_PREC : Nat := 1
def TERM_ITER : Nat := 2

/-- Number of values of a `uint64_t`. -/
def UINT64_SIZE : Nat := 2 ^ 64

/-! ## Data model (lines 58-82) -/

/-- The type `double (*)[N + 1][N + 1]`: `Matrix m i j` is `Matrix[m][i][j]`. -/
abbrev matrix (α : Type) : Type := Nat → Nat → Nat → α

/-- Assignment `Matrix[m][i][j] = x`. -/
def matrix_set {α : Type} (Matrix : matrix α) (m i j : Nat) (x : α) : matrix α :=
  fun m' i' j' => if m' = m ∧ i' = i ∧ j' = j then x else Matrix m' i' j'

/-- The struct `calculation_arguments`. -/
structure calculation_arguments (α : Type) where
  N : Nat
  num_matrices : Nat
  h : α
  M : matrix α

/-- The struct `calculation_results`. -/
structure calculation_results (α : Type) where
  m : Nat
  stat_iteration : Nat
  stat_precision : α

/-- The struct `options`. -/
structure options (α : Type) where
  number : Nat
  method : Nat
  interlines : Nat
  inf_func : Nat
  termination : Nat
  term_iteration : Nat
  term_precision : α

/-! ## askParams, initVariables and the clamp in main -/

/-- The function `askParams` (lines 148-223) on the six scanned arguments: `none` is the
`usage(); exit(1)` path.  The sixth argument is scanned as a `double` (`arg_prec`) under
`TERM_PREC` and as an unsigned integer (`arg_iter`) otherwise. -/
def askParams {α : Type} [LinearOrderedField α]
    (number method interlines inf_func termination : Nat) (arg_prec : α) (arg_iter : Nat) :
    Option (options α) :=
  if ¬ (number ≥ 1 ∧ number ≤ MAX_THREADS) then none
  else if ¬ (method = METH_GAUSS_SEIDEL ∨ method = METH_JACOBI) then none
  else if ¬ (interlines ≤ MAX_INTERLINES) then none
  else if ¬ (inf_func = FUNC_F0 ∨ inf_func = FUNC_FPISIN) then none
  else if ¬ (termination = TERM_PREC ∨ termination = TERM_ITER) then none
  else if termination = TERM_PREC then
    if ¬ (arg_prec ≥ 1 / 10 ^ 20 ∧ arg_prec ≤ 1 / 10 ^ 4) then none
    else some
      { number := number, method := method, interlines := interlines, inf_func := inf_func,
        termination := termination, term_iteration := MAX_ITERATION,
        term_precision := arg_prec }
  else
    if ¬ (arg_iter ≥ 1 ∧ arg_iter ≤ MAX_ITERATION) then none
    else some
      { number := number, method := method, interlines := interlines, inf_func := inf_func,
        termination := termination, term_iteration := arg_iter, term_precision := 0 }

/-- The function `initVariables` (lines 228-238); the buffer `M` is not touched by it. -/
def initVariables {α : Type} [LinearOrderedField α] (M : matrix α) (o : options α) :
    calculation_arguments α × calculation_results α :=
  let N := (o.interlines * 8) + 9 - 1
  ({ N := N, num_matrices := if o.method = METH_JACOBI then 2 else 1, h := 1 / (N : α), M := M },
   { m := 0, stat_iteration := 0, stat_precision := 0 })

/-- The clamp of `main` (lines 688-689): `if (options.number > arguments.N) options.number = 1;`.
The result is the `options` value handed to `initMatrices` and `calculate`. -/
def main_clamp {α : Type} (o : options α) (arguments : calculation_arguments α) : options α :=
  if o.number > arguments.N then { o with number := 1 } else o

/-! ## initMatrices (lines 334-410) -/

/-- The position of `Matrix[g][i][j]` in the flat buffer `M`. -/
def flat_index (N g i j : Nat) : Nat := g * ((N + 1) * (N + 1)) + i * (N + 1) + j

/-- The function `initMatrices_t` (lines 334-358): thread `thread_num` zeroes the elements
`lower, ..., upper - 1` of the flat buffer. -/
def initMatrices_t {α : Type} [LinearOrderedField α] (N num_threads method thread_num : Nat)
    (Matrix : matrix α) : matrix α :=
  let size := ((N + 1) * (N + 1)) * (if method = METH_JACOBI then 2 else 1)
  let count := size / num_threads
  let remainder := size % num_threads
  let lower := thread_num * count
  let upper := lower + count
  let lower := lower + (if thread_num < remainder then thread_num else remainder)
  let upper := upper + (if thread_num < remainder then thread_num + 1 else remainder)
  fun g i j => if lower ≤ flat_index N g i j ∧ flat_index N g i j < upper then 0 else Matrix g i j

/-- Lines 398-404: the body of the loop over `i` that sets the border values of matrix `g`. -/
def initMatrices_border {α : Type} [LinearOrderedField α] (N : Nat) (h : α) (g : Nat)
    (Matrix : matrix α) (i : Nat) : matrix α :=
  let Matrix := matrix_set Matrix g i 0 (1 - h * (i : α))
  let Matrix := matrix_set Matrix g i N (h * (i : α))
  let Matrix := matrix_set Matrix g 0 i (1 - h * (i : α))
  matrix_set Matrix g N i (h * (i : α))

/-- The function `initMatrices` (lines 363-410): all threads zero their part of the buffer, then
the borders are set when the interference function is `FUNC_F0`. -/
def initMatrices {α : Type} [LinearOrderedField α] (arguments : calculation_arguments α)
    (o : options α) : calculation_arguments α :=
  let N := arguments.N
  let Matrix := (List.range o.number).foldl
    (fun Matrix t => initMatrices_t N o.number o.method t Matrix) arguments.M
  let Matrix :=
    if o.inf_func = FUNC_F0 then
      (List.range arguments.num_matrices).foldl
        (fun Matrix g =>
          let Matrix := (List.range (N + 1)).foldl (initMatrices_border N arguments.h g) Matrix
          let Matrix := matrix_set Matrix g N 0 0
          matrix_set Matrix g 0 N 0)
        Matrix
    else Matrix
  { arguments with M := Matrix }

/-! ## calculate_t: the row range of a thread (lines 451-457) -/

/-- The values of `lower` and `upper` after line 457, for `N = args->N`,
`number = options->number` and `thread_num`. -/
def calculate_t_range (N number thread_num : Nat) : Nat × Nat :=
  let count := (N - 1) / number
  let remainder := (N - 1) % number
  let lower := 1 + thread_num * count
  let upper := lower + count
  let lower := lower + (if thread_num < remainder then thread_num else remainder)
  let upper := upper + (if thread_num < remainder then thread_num + 1 else remainder)
  (lower, upper)

/-- The variable `lower` of thread `thread_num`. -/
def lower (N number thread_num : Nat) : Nat := (calculate_t_range N number thread_num).1

/-- The variable `upper` of thread `thread_num`. -/
def upper (N number thread_num : Nat) : Nat := (calculate_t_range N number thread_num).2

/-! ## calculate_t: one thread of the solver (lines 415-531) -/

/-- Which rounds compute and reduce the residuum.  `as_written` is the condition of the source,
`options->termination == TERM_PREC || term_iteration == 1` (lines 483, 494 and 497);
`every_round` is the test variant that computes and reduces the residuum in every round. -/
inductive residuum_rule where
  | as_written
  | every_round
  deriving DecidableEq

/-- The guard of the residuum code under the given rule. -/
def computes_residuum {α : Type} (v : residuum_rule) (o : options α) (term_iteration : Nat) :
    Bool :=
  match v with
  | .as_written => decide (o.termination = TERM_PREC ∨ term_iteration = 1)
  | .every_round => true

/-- The values every thread gets from `calculate` through `struct shared_args`, apart
from the two shared arrays and `thread_num`. -/
structure shared_args (α : Type) where
  pih : α
  fpisin : α
  options : options α
  N : Nat

/-- The local variables of `calculate_t` that live across rounds. -/
structure thread_locals (α : Type) where
  m1 : Nat
  m2 : Nat
  maxresiduum : α
  stat_iteration : Nat
  term_iteration : Nat

/-- The memory of one solve: the two shared arrays and the locals of every thread. -/
structure world (α : Type) where
  Matrix : matrix α
  shared_maxresiduum : Nat → α
  thread : Nat → thread_locals α

section worker

variable {α : Type} [LinearOrderedField α] (v : residuum_rule) (sin : α → α)

/-- Lines 436-449: the locals of a thread when it reaches the loop. -/
def calculate_t_init (o : options α) : thread_locals α :=
  { m1 := 0
    m2 := if o.method = METH_JACOBI then 1 else 0
    maxresiduum := 0
    stat_iteration := 0
    term_iteration := o.term_iteration }

/-- Lines 476-490: the body of the loop over the columns, at row `i` and column `j`.  The state
is the matrix and `maxresiduum`. -/
def column_body (a : shared_args α) (fpisin_i : α) (term_iteration m1 m2 i : Nat)
    (st : matrix α × α) (j : Nat) : matrix α × α :=
  let Matrix := st.1
  let maxresiduum := st.2
  let star := (1 / 4) * (Matrix m2 (i - 1) j + Matrix m2 i (j - 1) + Matrix m2 i (j + 1)
    + Matrix m2 (i + 1) j)
  let star := if a.options.inf_func = FUNC_FPISIN then star + fpisin_i * sin (a.pih * (j : α))
    else star
  let maxresiduum :=
    if computes_residuum v a.options term_iteration then
      let residuum := Matrix m2 i j - star
      let residuum := abs residuum
      if residuum < maxresiduum then maxresiduum else residuum
    else maxresiduum
  (matrix_set Matrix m1 i j star, maxresiduum)

/-- Lines 465-492: the body of the loop over the rows, at row `i`; the columns run over
`j = 1, ..., N - 1`. -/
def row_body (a : shared_args α) (term_iteration m1 m2 : Nat) (st : matrix α × α) (i : Nat) :
    matrix α × α :=
  let fpisin_i := if a.options.inf_func = FUNC_FPISIN then a.fpisin * sin (a.pih * (i : α)) else 0
  (List.range' 1 (a.N - 1)).foldl (column_body v sin a fpisin_i term_iteration m1 m2 i) st

/-- Lines 461-492: `maxresiduum = 0.0` and the loop over the rows `i = lower, ..., upper - 1`. -/
def sweep (a : shared_args α) (term_iteration m1 m2 lower upper : Nat) (Matrix : matrix α) :
    matrix α × α :=
  (List.range' lower (upper - lower)).foldl (row_body v sin a term_iteration m1 m2) (Matrix, 0)

/-- Lines 459-495 for thread `thread_num`: the loop test, the sweep over the rows of the thread
and the publication of its maximum, up to the first barrier. -/
def before_barrier (a : shared_args α) (thread_num : Nat) (w : world α) : world α :=
  let l := w.thread thread_num
  if l.term_iteration > 0 then
    let r := sweep v sin a l.term_iteration l.m1 l.m2
      (lower a.N a.options.number thread_num) (upper a.N a.options.number thread_num) w.Matrix
    { Matrix := r.1
      shared_maxresiduum :=
        if computes_residuum v a.options l.term_iteration then
          Function.update w.shared_maxresiduum thread_num r.2
        else w.shared_maxresiduum
      thread := Function.update w.thread thread_num { l with maxresiduum := r.2 } }
  else w

/-- Lines 499-502: the scan of the published maxima, starting from the own maximum. -/
def reduce (number : Nat) (shared_maxresiduum : Nat → α) (maxresiduum : α) : α :=
  (List.range number).foldl
    (fun m k => if shared_maxresiduum k < m then m else shared_maxresiduum k) maxresiduum

/-- Lines 497-522 for thread `thread_num`: the reduction, the exchange of `m1` and `m2`, the
round counter and the termination check, from the first barrier to the end of the loop body. -/
def after_barrier (a : shared_args α) (thread_num : Nat) (w : world α) : world α :=
  let l := w.thread thread_num
  if l.term_iteration > 0 then
    let maxresiduum :=
      if computes_residuum v a.options l.term_iteration then
        reduce a.options.number w.shared_maxresiduum l.maxresiduum
      else l.maxresiduum
    let term_iteration :=
      if a.options.termination = TERM_PREC then
        if maxresiduum < a.options.term_precision then 0 else l.term_iteration
      else if a.options.termination = TERM_ITER then l.term_iteration - 1
      else l.term_iteration
    { w with
      thread := Function.update w.thread thread_num
        { m1 := l.m2
          m2 := l.m1
          maxresiduum := maxresiduum
          stat_iteration := (l.stat_iteration + 1) % UINT64_SIZE
          term_iteration := term_iteration } }
  else w

/-- One loop iteration of a single thread on its own. -/
def thread_round (a : shared_args α) (thread_num : Nat) (w : world α) : world α :=
  after_barrier v a thread_num (before_barrier v sin a thread_num w)

/-- One barrier-delimited round of all `options->number` threads: every thread runs up to the
first barrier, then every thread runs the rest of the loop body. -/
def round (a : shared_args α) (w : world α) : world α :=
  (List.range a.options.number).foldl (fun w t => after_barrier v a t w)
    ((List.range a.options.number).foldl (fun w t => before_barrier v sin a t w) w)

/-- One round in which the threads run up to the first barrier in the order `before` and the
rest of the loop body in the order `after`. -/
def round_in_order (a : shared_args α) (before after : List Nat) (w : world α) : world α :=
  after.foldl (fun w t => after_barrier v a t w)
    (before.foldl (fun w t => before_barrier v sin a t w) w)

/-- The world after `k` rounds. -/
def rounds (a : shared_args α) (k : Nat) (w : world α) : world α :=
  (round v sin a)^[k] w

/-- Whether every thread has left its loop, `term_iteration == 0`. -/
def all_stopped (a : shared_args α) (w : world α) : Bool :=
  (List.range a.options.number).all (fun t => (w.thread t).term_iteration == 0)

/-- The loops of all threads, round by round, until every thread has left its loop; `none` when
`fuel` rounds do not suffice.  (A thread that has left its loop takes no part in a round; the
threads are shown below never to disagree on leaving, so no thread waits at a barrier for one
that has left.) -/
def calculate_loop (a : shared_args α) : Nat → world α → Option (world α)
  | 0, w => if all_stopped a w then some w else none
  | fuel + 1, w =>
    if all_stopped a w then some w else calculate_loop a fuel (round v sin a w)

/-- Lines 524-529: what a thread stores in `results` after its loop. -/
def calculate_t_epilogue (thread_num : Nat) (l : thread_locals α)
    (results : calculation_results α) : calculation_results α :=
  if thread_num = 0 then
    { m := l.m2, stat_iteration := l.stat_iteration, stat_precision := l.maxresiduum }
  else results

/-- Lines 542-549 of `calculate`: the values handed to every thread. -/
def calculate_args (M_PI : α) (arguments : calculation_arguments α) (o : options α) :
    shared_args α :=
  { pih := if o.inf_func = FUNC_FPISIN then M_PI * arguments.h else 0
    fpisin := if o.inf_func = FUNC_FPISIN then (1 / 4) * (2 * M_PI * M_PI) * arguments.h
      * arguments.h else 0
    options := o
    N := arguments.N }

/-- The world in which the threads start: the matrix of `arguments`, the uninitialised array
`shared_maxresiduum` with arbitrary contents `shared0`, and the initial locals of every
thread. -/
def calculate_world (shared0 : Nat → α) (arguments : calculation_arguments α) (o : options α) :
    world α :=
  { Matrix := arguments.M
    shared_maxresiduum := shared0
    thread := fun _ => calculate_t_init o }

/-- The function `calculate` (lines 536-576): starts the threads, joins them and yields the
matrix and `results`; `none` when the threads are still running after `fuel` rounds. -/
def calculate (M_PI : α) (shared0 : Nat → α) (fuel : Nat) (arguments : calculation_arguments α)
    (results : calculation_results α) (o : options α) :
    Option (matrix α × calculation_results α) :=
  (calculate_loop v sin (calculate_args M_PI arguments o) fuel
    (calculate_world shared0 arguments o)).map
    (fun w => (w.Matrix,
      (List.range o.number).foldl (fun r t => calculate_t_epilogue t (w.thread t) r) results))

end worker

/-! ## The single-threaded reference solver of the specification -/

section reference

variable {α : Type} [LinearOrderedField α] (sin : α → α)

/-- The source term at cell `(i, j)`: zero, or the sinusoidal term. -/
def reference_source (a : shared_args α) (i j : Nat) : α :=
  if a.options.inf_func = FUNC_FPISIN then a.fpisin * sin (a.pih * (i : α)) * sin (a.pih * (j : α))
  else 0

/-- The stencil value of cell `(i, j)`: a quarter of the sum of the four neighbours in the read
slot, plus the source term. -/
def reference_star (a : shared_args α) (M : matrix α) (read i j : Nat) : α :=
  (1 / 4) * (M read (i - 1) j + M read i (j - 1) + M read i (j + 1) + M read (i + 1) j)
    + reference_source sin a i j

/-- The reference sweep: every interior cell of the write slot becomes its stencil value, every
other cell keeps its value. -/
def reference_sweep (a : shared_args α) (M : matrix α) (write read : Nat) : matrix α :=
  fun s i j =>
    if s = write ∧ 1 ≤ i ∧ i < a.N ∧ 1 ≤ j ∧ j < a.N then reference_star sin a M read i j
    else M s i j

/-- The residuals `|value read - value written|` of the cells with row in `is` and column in
`js`, row by row. -/
def residuals (a : shared_args α) (M : matrix α) (read : Nat) (is js : List Nat) : List α :=
  is.flatMap (fun i => js.map (fun j => abs (M read i j - reference_star sin a M read i j)))

/-- The maximum residual of a sweep over all interior cells (`0` when there is no interior
cell). -/
def reference_residual (a : shared_args α) (M : matrix α) (read : Nat) : α :=
  (residuals sin a M read (List.range' 1 (a.N - 1)) (List.range' 1 (a.N - 1))).foldl max 0

/-- The state of the reference solver. -/
structure reference_state (α : Type) where
  Matrix : matrix α
  write : Nat
  read : Nat
  rounds : Nat
  remaining : Nat
  residual : α

/-- One round of the reference solver: sweep, residual, exchange of the slots, and the
termination discipline (count: decrement; precision: stop below the threshold). -/
def reference_round (a : shared_args α) (s : reference_state α) : reference_state α :=
  if s.remaining > 0 then
    let residual := reference_residual sin a s.Matrix s.read
    { Matrix := reference_sweep sin a s.Matrix s.write s.read
      write := s.read
      read := s.write
      rounds := s.rounds + 1
      remaining :=
        if a.options.termination = TERM_PREC then
          if residual < a.options.term_precision then 0 else s.remaining
        else if a.options.termination = TERM_ITER then s.remaining - 1
        else s.remaining
      residual := residual }
  else s

/-- The reference loop; `none` when `fuel` rounds do not suffice. -/
def reference_loop (a : shared_args α) : Nat → reference_state α → Option (reference_state α)
  | 0, s => if s.remaining = 0 then some s else none
  | fuel + 1, s =>
    if s.remaining = 0 then some s else reference_loop a fuel (reference_round sin a s)

/-- The state in which the reference solver starts on the matrix `M`. -/
def reference_start (M : matrix α) (o : options α) : reference_state α :=
  { Matrix := M, write := 0, read := 1, rounds := 0, remaining := o.term_iteration, residual := 0 }

/-- The reference solve: the final matrix, the slot that holds the newest iterate, the round
count and the final residual. -/
def reference_solve (M_PI : α) (fuel : Nat) (arguments : calculation_arguments α)
    (o : options α) : Option (matrix α × Nat × Nat × α) :=
  (reference_loop sin (calculate_args M_PI arguments o) fuel (reference_start arguments.M o)).map
    (fun s => (s.Matrix, s.read, s.rounds, s.residual))

/-- The matrix after `k` unconditional sweeps from `M`: sweep `k + 1` writes slot `k % 2` and
reads slot `(k + 1) % 2`. -/
def jacobi (a : shared_args α) (M : matrix α) : Nat → matrix α
  | 0 => M
  | k + 1 => reference_sweep sin a (jacobi a M k) (k % 2) ((k + 1) % 2)

/-- The global maximum residual of round `k` (`k = 1` is the first round). -/
def round_residual (a : shared_args α) (M : matrix α) (k : Nat) : α :=
  reference_residual sin a (jacobi sin a M (k - 1)) (k % 2)

end reference

/-! ## All threads in lockstep -/

section lockstep

variable {α : Type} [LinearOrderedField α] (v : residuum_rule) (sin : α → α)

/-- What one round does to the matrix and to the locals `l` that all threads share: the loop
body of `calculate_t` with the sweeps of all threads merged into one sweep over the interior
and the reduction replaced by the maximum over the interior. -/
def lockstep_round (a : shared_args α) (st : matrix α × thread_locals α) :
    matrix α × thread_locals α :=
  let l := st.2
  if l.term_iteration > 0 then
    let maxresiduum :=
      if computes_residuum v a.options l.term_iteration then
        reference_residual sin a st.1 l.m2
      else 0
    (reference_sweep sin a st.1 l.m1 l.m2,
     { m1 := l.m2
       m2 := l.m1
       maxresiduum := maxresiduum
       stat_iteration := (l.stat_iteration + 1) % UINT64_SIZE
       term_iteration :=
         if a.options.termination = TERM_PREC then
           if maxresiduum < a.options.term_precision then 0 else l.term_iteration
         else if a.options.termination = TERM_ITER then l.term_iteration - 1
         else l.term_iteration })
  else st

/-- The locals of a thread after the part of the loop body behind the first barrier, given the
published maxima `shared_maxresiduum`. -/
def after_barrier_locals (a : shared_args α) (shared_maxresiduum : Nat → α)
    (l : thread_locals α) : thread_locals α :=
  if l.term_iteration > 0 then
    let maxresiduum :=
      if computes_residuum v a.options l.term_iteration then
        reduce a.options.number shared_maxresiduum l.maxresiduum
      else l.maxresiduum
    { m1 := l.m2
      m2 := l.m1
      maxresiduum := maxresiduum
      stat_iteration := (l.stat_iteration + 1) % UINT64_SIZE
      term_iteration :=
        if a.options.termination = TERM_PREC then
          if maxresiduum < a.options.term_precision then 0 else l.term_iteration
        else if a.options.termination = TERM_ITER then l.term_iteration - 1
        else l.term_iteration }
  else l

/-- The maximum that the sweep of thread `t` leaves in its `maxresiduum`, when the threads read
slot `m2` of `M`. -/
def local_maxresiduum (a : shared_args α) (term_iteration m2 : Nat) (M : matrix α) (t : Nat) : α :=
  if computes_residuum v a.options term_iteration then
    (residuals sin a M m2
      (List.range' (lower a.N a.options.number t)
        (upper a.N a.options.number t - lower a.N a.options.number t))
      (List.range' 1 (a.N - 1))).foldl max 0
  else 0

/-- The value `x` is the maximum of `0` and the values `f i j` over the cells with `P i j`. -/
def is_cells_max (P : Nat → Nat → Prop) (f : Nat → Nat → α) (x : α) : Prop :=
  (x = 0 ∨ ∃ i j, P i j ∧ x = f i j) ∧ 0 ≤ x ∧ ∀ i j, P i j → f i j ≤ x

/-- The lockstep state after `k` rounds from the matrix `M` and the locals `l`. -/
def lockstep (a : shared_args α) (M : matrix α) (l : thread_locals α) (k : Nat) :
    matrix α × thread_locals α :=
  (lockstep_round v sin a)^[k] (M, l)

/-- The lockstep state `st` and the reference state `s` agree: same matrix, slots and
remaining rounds, the round counter of the threads is the reference count modulo `2 ^ 64`, and
once the solver has stopped the threads hold the reference residual. -/
def agrees (st : matrix α × thread_locals α) (s : reference_state α) : Prop :=
  st.1 = s.Matrix ∧ st.2.m1 = s.write ∧ st.2.m2 = s.read
  ∧ st.2.stat_iteration = s.rounds % UINT64_SIZE ∧ st.2.term_iteration = s.remaining
  ∧ (s.remaining = 0 → st.2.maxresiduum = s.residual)

/-- The world `w` of `a.options.number` threads simulates the reference state `s`: all threads
hold the same locals, with two different slots, and these agree with `s`. -/
def simulates (a : shared_args α) (w : world α) (s : reference_state α) : Prop :=
  ∃ l : thread_locals α, (∀ t, t < a.options.number → w.thread t = l) ∧ l.m1 ≠ l.m2
    ∧ agrees (w.Matrix, l) s

/-- Two argument records pose the same problem: they differ at most in fields the reference
solver does not read (such as the thread count). -/
def same_problem (a a' : shared_args α) : Prop :=
  a.pih = a'.pih ∧ a.fpisin = a'.fpisin ∧ a.N = a'.N
  ∧ a.options.inf_func = a'.options.inf_func ∧ a.options.termination = a'.options.termination
  ∧ a.options.term_precision = a'.options.term_precision

end lockstep

/-! ## The concrete scenario of the specification -/

/-- The options of the run `partdiff T 2 0 1 2 10`: `T` threads, Jacobi, interline density 0
(so `N = 8`), no interference term, count discipline with 10 rounds. -/
def scenario_options (T : Nat) : options ℚ :=
  { number := T, method := METH_JACOBI, interlines := 0, inf_func := FUNC_F0,
    termination := TERM_ITER, term_iteration := 10, term_precision := 0 }

/-- The arguments of that run after `initVariables` and `initMatrices`. -/
def scenario_arguments (T : Nat) : calculation_arguments ℚ :=
  initMatrices (initVariables (fun _ _ _ => 0) (scenario_options T)).1 (scenario_options T)

/-- The options of the run `partdiff T 2 0 1 1 1e-6`: as before, under the precision
discipline with threshold `1e-6`. -/
def scenario_options_prec (T : Nat) : options ℚ :=
  { number := T, method := METH_JACOBI, interlines := 0, inf_func := FUNC_F0,
    termination := TERM_PREC, term_iteration := MAX_ITERATION, term_precision := 1 / 10 ^ 6 }

/-! ## calculate_t: the cells that the loop body touches -/

/-- Lines 476-490: the row and column indices of the cells that the loop body at row `i` and
column `j` touches, as the signed values of the `int` expressions: the four neighbours read
from `Matrix[m2]`, the cell `Matrix[m2][i][j]` read for the residuum, and the cell
`Matrix[m1][i][j]` that is written. -/
def column_body_accesses (i j : Int) : List (Int × Int) :=
  [(i - 1, j), (i, j - 1), (i, j + 1), (i + 1, j), (i, j), (i, j)]

/-! ## Border values and the bilinear grid -/

/-- Both slots of the matrix hold the same values on the border cells, the cells of the rows
and columns `0` and `N`. -/
def same_border {α : Type} (N : Nat) (M : matrix α) : Prop :=
  ∀ i j, i ≤ N → j ≤ N → (i = 0 ∨ i = N ∨ j = 0 ∨ j = N) → M 0 i j = M 1 i j

/-- The value that lines 398-407 of `initMatrices` leave in the border cell `(i, j)` of every
matrix, for the spacing `h`: `0` in the corners `(0, N)` and `(N, 0)`, otherwise
`1 - h * j` in row `0`, `h * j` in row `N`, `1 - h * i` in column `0` and `h * i` in
column `N`. -/
def border_value {α : Type} [LinearOrderedField α] (N : Nat) (h : α) (i j : Nat) : α :=
  if (i = 0 ∧ j = N) ∨ (i = N ∧ j = 0) then 0
  else if i = 0 then 1 - h * (j : α)
  else if i = N then h * (j : α)
  else if j = 0 then 1 - h * (i : α)
  else h * (i : α)

/-- The bilinear grid `u[i][j] = 1 - h*i - h*j + 2*h*h*i*j` with `h = 1 / N`. -/
def bilinear {α : Type} [LinearOrderedField α] (N i j : Nat) : α :=
  1 - (1 / (N : α)) * (i : α) - (1 / (N : α)) * (j : α)
    + 2 * (1 / (N : α)) * (1 / (N : α)) * (i : α) * (j : α)

/-- Arguments with `N = 8` whose two matrices hold the bilinear grid. -/
def scenario_arguments_bilinear : calculation_arguments ℚ :=
  { N := 8, num_matrices := 2, h := 1 / 8, M := fun _ i j => bilinear 8 i j }

/-- Lines 398-407 of `initMatrices` for the matrix `g`: the loop over `i` that sets the border
values, followed by the two assignments to the corners `(N, 0)` and `(0, N)`. -/
def init_border_pass {α : Type} [LinearOrderedField α] (N : Nat) (h : α) (Matrix : matrix α)
    (g : Nat) : matrix α :=
  matrix_set
    (matrix_set ((List.range (N + 1)).foldl (initMatrices_border N h g) Matrix) g N 0 0) g 0 N 0

/-- The number of elements that the threads of `initMatrices_t` zero (line 341-343). -/
def init_size (N method : Nat) : Nat :=
  ((N + 1) * (N + 1)) * (if method = METH_JACOBI then 2 else 1)

/-- The variable `lower` of `initMatrices_t` after line 351. -/
def init_lower (size num_threads thread_num : Nat) : Nat :=
  thread_num * (size / num_threads)
    + (if thread_num < size % num_threads then thread_num else size % num_threads)

/-- The variable `upper` of `initMatrices_t` after line 352. -/
def init_upper (size num_threads thread_num : Nat) : Nat :=
  thread_num * (size / num_threads) + size / num_threads
    + (if thread_num < size % num_threads then thread_num + 1 else size % num_threads)

/-! ## The row ranges -/

theorem lower_eq (N T t : Nat) :
    lower N T t = 1 + t * ((N - 1) / T) + min t ((N - 1) % T) := by
  simp only [lower, calculate_t_range]
  split_ifs with h
  · rw [min_eq_left h.le]
  · rw [min_eq_right (not_lt.mp h)]

theorem upper_eq (N T t : Nat) :
    upper N T t = lower N T t + (N - 1) / T + (if t < (N - 1) % T then 1 else 0) := by
  simp only [upper, lower, calculate_t_range]
  split_ifs <;> omega

theorem upper_eq_lower_succ (N T t : Nat) : upper N T t = lower N T (t + 1) := by
  simp only [upper, lower, calculate_t_range, Nat.add_mul, Nat.one_mul]
  split_ifs <;> omega

theorem lower_zero (N T : Nat) : lower N T 0 = 1 := by
  simp [lower, calculate_t_range]

theorem lower_le_upper (N T t : Nat) : lower N T t ≤ upper N T t := by
  rw [upper_eq]; exact Nat.le_add_right_of_le (Nat.le_add_right _ _)

theorem lower_mono (N T : Nat) {t t' : Nat} (h : t ≤ t') : lower N T t ≤ lower N T t' := by
  induction t' with
  | zero => rw [Nat.le_zero.mp h]
  | succ n ih =>
    rcases Nat.lt_or_ge t (n + 1) with h1 | h1
    · have := ih (Nat.lt_succ_iff.mp h1)
      have h2 := lower_le_upper N T n
      rw [upper_eq_lower_succ] at h2
      omega
    · rw [Nat.le_antisymm h h1]

theorem lower_full (N T : Nat) (hT : 1 ≤ T) : lower N T T = N - 1 + 1 := by
  rw [lower_eq, min_eq_right (Nat.mod_lt _ hT).le, Nat.add_assoc, Nat.div_add_mod, Nat.add_comm]

theorem upper_last (N T : Nat) (hT : 1 ≤ T) : upper N T (T - 1) = N - 1 + 1 := by
  rw [upper_eq_lower_succ, Nat.sub_add_cancel hT, lower_full N T hT]

theorem one_le_lower (N T t : Nat) : 1 ≤ lower N T t := by
  rw [lower_eq]; omega

theorem upper_le (N T t : Nat) (hT : 1 ≤ T) (ht : t < T) : upper N T t ≤ N - 1 + 1 := by
  rw [upper_eq_lower_succ, ← lower_full N T hT]
  exact lower_mono N T ht

/-- Every index between `lower 0` and `lower T` lies in exactly one of the ranges. -/
theorem exists_range (N T : Nat) (i : Nat) (k : Nat) (h1 : 1 ≤ i) (h2 : i < lower N T k) :
    ∃ t, t < k ∧ lower N T t ≤ i ∧ i < upper N T t := by
  induction k with
  | zero => rw [lower_zero] at h2; omega
  | succ n ih =>
    rcases Nat.lt_or_ge i (lower N T n) with h | h
    · obtain ⟨t, ht, hl⟩ := ih h
      exact ⟨t, by omega, hl⟩
    · exact ⟨n, by omega, h, by rw [upper_eq_lower_succ]; exact h2⟩

theorem mem_range_iff (N T : Nat) (hT : 1 ≤ T) (i : Nat) :
    (∃ t, t < T ∧ lower N T t ≤ i ∧ i < upper N T t) ↔ 1 ≤ i ∧ i ≤ N - 1 := by
  constructor
  · rintro ⟨t, ht, hl, hu⟩
    have := one_le_lower N T t
    have := upper_le N T t hT ht
    omega
  · rintro ⟨h1, h2⟩
    exact exists_range N T i T h1 (by rw [lower_full N T hT]; omega)

theorem ranges_disjoint (N T : Nat) {t t' : Nat} (h : t < t') (i : Nat)
    (hi : i < upper N T t) : ¬ lower N T t' ≤ i := by
  have := lower_mono N T (Nat.succ_le_of_lt h)
  rw [← upper_eq_lower_succ] at this
  omega

/-! ## The sweep of one thread -/

section sweep_lemmas

variable {α : Type} [LinearOrderedField α] (v : residuum_rule) (sin : α → α)

theorem max_step (m r : α) : (if r < m then m else r) = max m r := by
  rcases lt_or_le r m with h | h
  · rw [if_pos h, max_eq_left h.le]
  · rw [if_neg (not_lt.mpr h), max_eq_right h]

theorem reference_star_congr (a : shared_args α) (M M' : matrix α) (read i j : Nat)
    (h : ∀ i' j', M read i' j' = M' read i' j') :
    reference_star sin a M read i j = reference_star sin a M' read i j := by
  simp only [reference_star, h]

theorem column_body_eq (a : shared_args α) (ti m1 m2 i : Nat) (st : matrix α × α) (j : Nat) :
    column_body v sin a
      (if a.options.inf_func = FUNC_FPISIN then a.fpisin * sin (a.pih * (i : α)) else 0)
      ti m1 m2 i st j
    = (matrix_set st.1 m1 i j (reference_star sin a st.1 m2 i j),
       if computes_residuum v a.options ti then
         max st.2 (abs (st.1 m2 i j - reference_star sin a st.1 m2 i j))
       else st.2) := by
  simp only [column_body, reference_star, reference_source, max_step]
  by_cases hf : a.options.inf_func = FUNC_FPISIN
  · simp only [hf, if_true]
  · simp only [hf, if_false, add_zero]

theorem column_fold (a : shared_args α) (ti m1 m2 i : Nat) (hm : m1 ≠ m2) (M0 : matrix α)
    (js : List Nat) :
    ∀ st : matrix α × α, (∀ i' j', st.1 m2 i' j' = M0 m2 i' j') →
      (∀ s i' j',
        (js.foldl (column_body v sin a
          (if a.options.inf_func = FUNC_FPISIN then a.fpisin * sin (a.pih * (i : α)) else 0)
          ti m1 m2 i) st).1 s i' j'
        = if s = m1 ∧ i' = i ∧ j' ∈ js then reference_star sin a M0 m2 i' j' else st.1 s i' j')
      ∧ (js.foldl (column_body v sin a
          (if a.options.inf_func = FUNC_FPISIN then a.fpisin * sin (a.pih * (i : α)) else 0)
          ti m1 m2 i) st).2
        = if computes_residuum v a.options ti then
            (residuals sin a M0 m2 [i] js).foldl max st.2
          else st.2 := by
  induction js with
  | nil => intro st _; simp [residuals]
  | cons j js ih =>
    intro st hst
    rw [List.foldl_cons, column_body_eq]
    have hstar : reference_star sin a st.1 m2 i j = reference_star sin a M0 m2 i j :=
      reference_star_congr sin a _ _ _ _ _ hst
    have h1 : ∀ i' j', (matrix_set st.1 m1 i j (reference_star sin a st.1 m2 i j)) m2 i' j'
        = M0 m2 i' j' := by
      intro i' j'
      simp only [matrix_set, hm.symm, false_and, if_false, hst]
    obtain ⟨ihA, ihB⟩ := ih (matrix_set st.1 m1 i j (reference_star sin a st.1 m2 i j),
       if computes_residuum v a.options ti then
         max st.2 (abs (st.1 m2 i j - reference_star sin a st.1 m2 i j))
       else st.2) h1
    refine ⟨?_, ?_⟩
    · intro s i' j'
      rw [ihA]
      simp only [matrix_set, List.mem_cons, hstar]
      by_cases hs : s = m1 ∧ i' = i ∧ j' ∈ js
      · rw [if_pos hs, if_pos ⟨hs.1, hs.2.1, Or.inr hs.2.2⟩]
      · rw [if_neg hs]
        by_cases hj : s = m1 ∧ i' = i ∧ j' = j
        · rw [if_pos hj, if_pos ⟨hj.1, hj.2.1, Or.inl hj.2.2⟩, hj.2.1, hj.2.2]
        · rw [if_neg hj, if_neg]
          rintro ⟨h1, h2, h3 | h3⟩
          · exact hj ⟨h1, h2, h3⟩
          · exact hs ⟨h1, h2, h3⟩
    · rw [ihB]
      cases hc : computes_residuum v a.options ti
      · simp
      · simp only [if_true, residuals, List.flatMap_cons, List.flatMap_nil, List.append_nil,
          List.map_cons, List.foldl_cons, hst, hstar]

theorem residuals_cons (a : shared_args α) (M : matrix α) (read i : Nat) (is js : List Nat) :
    residuals sin a M read (i :: is) js
      = residuals sin a M read [i] js ++ residuals sin a M read is js := by
  simp [residuals]

theorem row_fold (a : shared_args α) (ti m1 m2 : Nat) (hm : m1 ≠ m2) (M0 : matrix α)
    (is : List Nat) :
    ∀ st : matrix α × α, (∀ i' j', st.1 m2 i' j' = M0 m2 i' j') →
      (∀ s i' j',
        (is.foldl (row_body v sin a ti m1 m2) st).1 s i' j'
        = if s = m1 ∧ i' ∈ is ∧ j' ∈ List.range' 1 (a.N - 1) then
            reference_star sin a M0 m2 i' j'
          else st.1 s i' j')
      ∧ (is.foldl (row_body v sin a ti m1 m2) st).2
        = if computes_residuum v a.options ti then
            (residuals sin a M0 m2 is (List.range' 1 (a.N - 1))).foldl max st.2
          else st.2 := by
  induction is with
  | nil => intro st _; simp [residuals]
  | cons i is ih =>
    intro st hst
    rw [List.foldl_cons]
    obtain ⟨cA, cB⟩ := column_fold v sin a ti m1 m2 i hm M0 (List.range' 1 (a.N - 1)) st hst
    have h1 : ∀ i' j', (row_body v sin a ti m1 m2 st i).1 m2 i' j' = M0 m2 i' j' := by
      intro i' j'
      have := cA m2 i' j'
      simp only [hm.symm, false_and, if_false] at this
      rw [← hst]
      exact this
    obtain ⟨ihA, ihB⟩ := ih (row_body v sin a ti m1 m2 st i) h1
    refine ⟨?_, ?_⟩
    · intro s i' j'
      rw [ihA]
      have := cA s i' j'
      simp only [row_body] at this ⊢
      rw [this]
      simp only [List.mem_cons]
      by_cases hs : s = m1 ∧ i' ∈ is ∧ j' ∈ List.range' 1 (a.N - 1)
      · rw [if_pos hs, if_pos ⟨hs.1, Or.inr hs.2.1, hs.2.2⟩]
      · rw [if_neg hs]
        by_cases hj : s = m1 ∧ i' = i ∧ j' ∈ List.range' 1 (a.N - 1)
        · rw [if_pos hj, if_pos ⟨hj.1, Or.inl hj.2.1, hj.2.2⟩]
        · rw [if_neg hj, if_neg]
          rintro ⟨h1, h2 | h2, h3⟩
          · exact hj ⟨h1, h2, h3⟩
          · exact hs ⟨h1, h2, h3⟩
    · rw [ihB]
      have hB : (row_body v sin a ti m1 m2 st i).2
          = if computes_residuum v a.options ti then
              (residuals sin a M0 m2 [i] (List.range' 1 (a.N - 1))).foldl max st.2
            else st.2 := cB
      rw [hB]
      cases hc : computes_residuum v a.options ti
      · simp
      · simp only [if_true]
        rw [residuals_cons sin a M0 m2 i is, List.foldl_append]

/-- The matrix after the sweep of a thread with rows `lo, ..., hi - 1`. -/
theorem sweep_matrix (a : shared_args α) (ti m1 m2 lo hi : Nat) (hm : m1 ≠ m2) (M : matrix α)
    (s i j : Nat) :
    (sweep v sin a ti m1 m2 lo hi M).1 s i j
      = if s = m1 ∧ (lo ≤ i ∧ i < hi) ∧ (1 ≤ j ∧ j < a.N) then reference_star sin a M m2 i j
        else M s i j := by
  have h := (row_fold v sin a ti m1 m2 hm M (List.range' lo (hi - lo)) (M, 0)
    (fun _ _ => rfl)).1 s i j
  simp only [sweep]
  rw [h]
  have e1 : i ∈ List.range' lo (hi - lo) ↔ (lo ≤ i ∧ i < hi) := by
    rw [List.mem_range'_1]; omega
  have e2 : j ∈ List.range' 1 (a.N - 1) ↔ (1 ≤ j ∧ j < a.N) := by
    rw [List.mem_range'_1]; omega
  simp only [e1, e2]

/-- The local maximum after the sweep of a thread with rows `lo, ..., hi - 1`. -/
theorem sweep_maxresiduum (a : shared_args α) (ti m1 m2 lo hi : Nat) (hm : m1 ≠ m2)
    (M : matrix α) :
    (sweep v sin a ti m1 m2 lo hi M).2
      = if computes_residuum v a.options ti then
          (residuals sin a M m2 (List.range' lo (hi - lo)) (List.range' 1 (a.N - 1))).foldl max 0
        else 0 :=
  (row_fold v sin a ti m1 m2 hm M (List.range' lo (hi - lo)) (M, 0) (fun _ _ => rfl)).2

end sweep_lemmas

/-! ## Maxima -/

section max_lemmas

variable {α : Type} [LinearOrderedField α] (v : residuum_rule) (sin : α → α)

theorem le_foldl_max_init (l : List α) : ∀ a : α, a ≤ l.foldl max a := by
  induction l with
  | nil => intro a; exact le_refl a
  | cons x l ih => intro a; exact le_trans (le_max_left a x) (ih (max a x))

theorem le_foldl_max_mem (l : List α) : ∀ (a x : α), x ∈ l → x ≤ l.foldl max a := by
  induction l with
  | nil => intro a x hx; cases hx
  | cons y l ih =>
    intro a x hx
    rcases List.mem_cons.mp hx with h | h
    · rw [h]; exact le_trans (le_max_right a y) (le_foldl_max_init l (max a y))
    · exact ih (max a y) x h

theorem foldl_max_eq_or_mem (l : List α) : ∀ a : α, l.foldl max a = a ∨ l.foldl max a ∈ l := by
  induction l with
  | nil => intro a; exact Or.inl rfl
  | cons y l ih =>
    intro a
    rcases ih (max a y) with h | h
    · rcases max_choice a y with h' | h'
      · left; rw [List.foldl_cons, h, h']
      · right; rw [List.foldl_cons, h, h']; exact List.mem_cons_self y l
    · right; exact List.mem_cons_of_mem y h

theorem is_cells_max_unique {P : Nat → Nat → Prop} {f : Nat → Nat → α} {x y : α}
    (hx : is_cells_max P f x) (hy : is_cells_max P f y) : x = y := by
  have key : ∀ {x y : α}, is_cells_max P f x → is_cells_max P f y → x ≤ y := by
    intro x y hx hy
    rcases hx.1 with h | ⟨i, j, hP, h⟩
    · rw [h]; exact hy.2.1
    · rw [h]; exact hy.2.2 i j hP
  exact le_antisymm (key hx hy) (key hy hx)

theorem mem_residuals (a : shared_args α) (M : matrix α) (read : Nat) (is js : List Nat) (x : α) :
    x ∈ residuals sin a M read is js
      ↔ ∃ i j, (i ∈ is ∧ j ∈ js) ∧ x = abs (M read i j - reference_star sin a M read i j) := by
  simp only [residuals, List.mem_flatMap, List.mem_map]
  constructor
  · rintro ⟨i, hi, j, hj, h⟩
    exact ⟨i, j, ⟨hi, hj⟩, h.symm⟩
  · rintro ⟨i, j, ⟨hi, hj⟩, h⟩
    exact ⟨i, hi, j, hj, h.symm⟩

theorem residuals_congr (a : shared_args α) (M M' : matrix α) (read : Nat) (is js : List Nat)
    (h : ∀ i' j', M read i' j' = M' read i' j') :
    residuals sin a M read is js = residuals sin a M' read is js := by
  simp only [residuals, h]
  congr 1
  funext i
  congr 1
  funext j
  rw [reference_star_congr sin a M M' read i j h]

/-- The fold of `max` over the residuals of a block of cells is their maximum. -/
theorem foldl_max_residuals (a : shared_args α) (M : matrix α) (read : Nat) (is js : List Nat) :
    is_cells_max (fun i j => i ∈ is ∧ j ∈ js)
      (fun i j => abs (M read i j - reference_star sin a M read i j))
      ((residuals sin a M read is js).foldl max 0) := by
  refine ⟨?_, le_foldl_max_init _ 0, ?_⟩
  · rcases foldl_max_eq_or_mem (residuals sin a M read is js) 0 with h | h
    · exact Or.inl h
    · exact Or.inr ((mem_residuals sin a M read is js _).mp h)
  · intro i j hP
    exact le_foldl_max_mem _ 0 _ ((mem_residuals sin a M read is js _).mpr ⟨i, j, hP, rfl⟩)

theorem reduce_eq (T : Nat) (sh : Nat → α) (own : α) :
    reduce T sh own = ((List.range T).map sh).foldl max own := by
  simp only [reduce, max_step, List.foldl_map]

/-- The scan of the published maxima yields their maximum, whatever the thread: it is one of
the published values or the own value, and it bounds all of them. -/
theorem reduce_spec (T : Nat) (sh : Nat → α) (own : α) :
    (reduce T sh own = own ∨ ∃ k, k < T ∧ reduce T sh own = sh k)
    ∧ own ≤ reduce T sh own ∧ ∀ k, k < T → sh k ≤ reduce T sh own := by
  rw [reduce_eq]
  refine ⟨?_, le_foldl_max_init _ own, ?_⟩
  · rcases foldl_max_eq_or_mem ((List.range T).map sh) own with h | h
    · exact Or.inl h
    · obtain ⟨k, hk, e⟩ := List.mem_map.mp h
      exact Or.inr ⟨k, List.mem_range.mp hk, e.symm⟩
  · intro k hk
    exact le_foldl_max_mem _ own _ (List.mem_map.mpr ⟨k, List.mem_range.mpr hk, rfl⟩)

theorem reference_residual_spec (a : shared_args α) (M : matrix α) (read : Nat) :
    is_cells_max (fun i j => (1 ≤ i ∧ i < a.N) ∧ (1 ≤ j ∧ j < a.N))
      (fun i j => abs (M read i j - reference_star sin a M read i j))
      (reference_residual sin a M read) := by
  have h := foldl_max_residuals sin a M read (List.range' 1 (a.N - 1)) (List.range' 1 (a.N - 1))
  have e : ∀ i, i ∈ List.range' 1 (a.N - 1) ↔ (1 ≤ i ∧ i < a.N) := by
    intro i; rw [List.mem_range'_1]; omega
  simp only [e] at h
  exact h

/-- When every thread has published the maximum of its own rows, the scan of any thread yields
the maximum over the whole interior. -/
theorem reduce_local_maxresiduum (a : shared_args α) (hN : 1 ≤ a.N) (ti m2 : Nat)
    (hc : computes_residuum v a.options ti = true) (M : matrix α) (sh : Nat → α)
    (hsh : ∀ k, k < a.options.number → sh k = local_maxresiduum v sin a ti m2 M k)
    (t : Nat) (ht : t < a.options.number) :
    reduce a.options.number sh (local_maxresiduum v sin a ti m2 M t)
      = reference_residual sin a M m2 := by
  have hT : 1 ≤ a.options.number := by omega
  have hloc : ∀ k, is_cells_max
      (fun i j => (lower a.N a.options.number k ≤ i ∧ i < upper a.N a.options.number k)
        ∧ (1 ≤ j ∧ j < a.N))
      (fun i j => abs (M m2 i j - reference_star sin a M m2 i j))
      (local_maxresiduum v sin a ti m2 M k) := by
    intro k
    have h := foldl_max_residuals sin a M m2
      (List.range' (lower a.N a.options.number k)
        (upper a.N a.options.number k - lower a.N a.options.number k))
      (List.range' 1 (a.N - 1))
    have e1 : ∀ i, i ∈ List.range' (lower a.N a.options.number k)
        (upper a.N a.options.number k - lower a.N a.options.number k)
        ↔ (lower a.N a.options.number k ≤ i ∧ i < upper a.N a.options.number k) := by
      intro i; rw [List.mem_range'_1]; omega
    have e2 : ∀ j, j ∈ List.range' 1 (a.N - 1) ↔ (1 ≤ j ∧ j < a.N) := by
      intro j; rw [List.mem_range'_1]; omega
    simp only [e1, e2] at h
    simp only [local_maxresiduum, hc, if_true]
    exact h
  have hin : ∀ k, k < a.options.number →
      (local_maxresiduum v sin a ti m2 M k = 0 ∨ ∃ i j, ((1 ≤ i ∧ i < a.N) ∧ (1 ≤ j ∧ j < a.N))
        ∧ local_maxresiduum v sin a ti m2 M k = abs (M m2 i j - reference_star sin a M m2 i j)) := by
    intro k hk
    rcases (hloc k).1 with h | ⟨i, j, ⟨hi, hj⟩, h⟩
    · exact Or.inl h
    · have := (mem_range_iff a.N a.options.number hT i).mp ⟨k, hk, hi⟩
      exact Or.inr ⟨i, j, ⟨⟨this.1, by omega⟩, hj⟩, h⟩
  obtain ⟨r1, r2, r3⟩ := reduce_spec a.options.number sh (local_maxresiduum v sin a ti m2 M t)
  refine is_cells_max_unique ⟨?_, ?_, ?_⟩ (reference_residual_spec sin a M m2)
  · rcases r1 with h | ⟨k, hk, h⟩
    · rw [h]; exact hin t ht
    · rw [h, hsh k hk]; exact hin k hk
  · exact le_trans (hloc t).2.1 r2
  · rintro i j ⟨hi, hj⟩
    obtain ⟨k, hk, hik⟩ := (mem_range_iff a.N a.options.number hT i).mpr ⟨hi.1, by omega⟩
    have := r3 k hk
    rw [hsh k hk] at this
    exact le_trans ((hloc k).2.2 i j ⟨hik, hj⟩) this

end max_lemmas

/-! ## One round of all threads -/

section round_lemmas

variable {α : Type} [LinearOrderedField α] (v : residuum_rule) (sin : α → α)

theorem before_barrier_running (a : shared_args α) (t : Nat) (w : world α)
    (h : 0 < (w.thread t).term_iteration) :
    before_barrier v sin a t w =
      { Matrix := (sweep v sin a (w.thread t).term_iteration (w.thread t).m1 (w.thread t).m2
          (lower a.N a.options.number t) (upper a.N a.options.number t) w.Matrix).1
        shared_maxresiduum :=
          if computes_residuum v a.options (w.thread t).term_iteration then
            Function.update w.shared_maxresiduum t
              (sweep v sin a (w.thread t).term_iteration (w.thread t).m1 (w.thread t).m2
                (lower a.N a.options.number t) (upper a.N a.options.number t) w.Matrix).2
          else w.shared_maxresiduum
        thread := Function.update w.thread t
          { (w.thread t) with
            maxresiduum :=
              (sweep v sin a (w.thread t).term_iteration (w.thread t).m1 (w.thread t).m2
                (lower a.N a.options.number t) (upper a.N a.options.number t) w.Matrix).2 } } := by
  simp only [before_barrier, gt_iff_lt, h, if_true]

theorem before_barrier_stopped (a : shared_args α) (t : Nat) (w : world α)
    (h : (w.thread t).term_iteration = 0) : before_barrier v sin a t w = w := by
  simp [before_barrier, h]

theorem after_barrier_eq (a : shared_args α) (t : Nat) (w : world α) :
    after_barrier v a t w =
      { w with
        thread := Function.update w.thread t
          (after_barrier_locals v a w.shared_maxresiduum (w.thread t)) } := by
  by_cases h : 0 < (w.thread t).term_iteration
  · simp only [after_barrier, after_barrier_locals, gt_iff_lt, h, if_true]
  · simp only [after_barrier, after_barrier_locals, gt_iff_lt, h, if_false,
      Function.update_eq_self]

/-- The world after the threads of the list `ts` ran up to the first barrier, when they all
hold the running locals `l` and the read slot still has the contents it has in `M0`. -/
theorem before_barrier_fold (a : shared_args α) (l : thread_locals α)
    (hrun : 0 < l.term_iteration) (hm : l.m1 ≠ l.m2) (M0 : matrix α) (ts : List Nat) :
    ∀ w : world α, ts.Nodup → (∀ t, t ∈ ts → w.thread t = l) →
      (∀ i j, w.Matrix l.m2 i j = M0 l.m2 i j) →
      (∀ s i j, (ts.foldl (fun w t => before_barrier v sin a t w) w).Matrix s i j
        = if s = l.m1
            ∧ (∃ t, t ∈ ts ∧ lower a.N a.options.number t ≤ i ∧ i < upper a.N a.options.number t)
            ∧ (1 ≤ j ∧ j < a.N)
          then reference_star sin a M0 l.m2 i j else w.Matrix s i j)
      ∧ (∀ t, (ts.foldl (fun w t => before_barrier v sin a t w) w).thread t
        = if t ∈ ts then
            { l with maxresiduum := local_maxresiduum v sin a l.term_iteration l.m2 M0 t }
          else w.thread t)
      ∧ (∀ k, (ts.foldl (fun w t => before_barrier v sin a t w) w).shared_maxresiduum k
        = if k ∈ ts ∧ computes_residuum v a.options l.term_iteration = true then
            local_maxresiduum v sin a l.term_iteration l.m2 M0 k
          else w.shared_maxresiduum k) := by
  induction ts with
  | nil => intro w _ _ _; simp
  | cons t ts ih =>
    intro w hnd hall hM
    have htl : w.thread t = l := hall t (List.mem_cons_self t ts)
    have hrun' : 0 < (w.thread t).term_iteration := by rw [htl]; exact hrun
    have hmax : (sweep v sin a l.term_iteration l.m1 l.m2 (lower a.N a.options.number t)
        (upper a.N a.options.number t) w.Matrix).2
        = local_maxresiduum v sin a l.term_iteration l.m2 M0 t := by
      rw [sweep_maxresiduum v sin a _ _ _ _ _ hm, local_maxresiduum,
        residuals_congr sin a w.Matrix M0 l.m2 _ _ hM]
    have hmat : ∀ s i j, (sweep v sin a l.term_iteration l.m1 l.m2
        (lower a.N a.options.number t) (upper a.N a.options.number t) w.Matrix).1 s i j
        = if s = l.m1
            ∧ (lower a.N a.options.number t ≤ i ∧ i < upper a.N a.options.number t)
            ∧ (1 ≤ j ∧ j < a.N)
          then reference_star sin a M0 l.m2 i j else w.Matrix s i j := by
      intro s i j
      rw [sweep_matrix v sin a _ _ _ _ _ hm, reference_star_congr sin a w.Matrix M0 l.m2 i j hM]
    rw [List.foldl_cons, before_barrier_running v sin a t w hrun', htl, hmax]
    have hnd' := List.nodup_cons.mp hnd
    obtain ⟨iA, iB, iC⟩ := ih
      { Matrix := (sweep v sin a l.term_iteration l.m1 l.m2 (lower a.N a.options.number t)
          (upper a.N a.options.number t) w.Matrix).1
        shared_maxresiduum :=
          if computes_residuum v a.options l.term_iteration then
            Function.update w.shared_maxresiduum t
              (local_maxresiduum v sin a l.term_iteration l.m2 M0 t)
          else w.shared_maxresiduum
        thread := Function.update w.thread t
          { l with maxresiduum := local_maxresiduum v sin a l.term_iteration l.m2 M0 t } }
      hnd'.2
      (by
        intro t' ht'
        have hne : t' ≠ t := fun e => hnd'.1 (e ▸ ht')
        simp only [Function.update_noteq hne]
        exact hall t' (List.mem_cons_of_mem t ht'))
      (by
        intro i j
        simp only [hmat, hm.symm, false_and, if_false]
        exact hM i j)
    refine ⟨?_, ?_, ?_⟩
    · intro s i j
      rw [iA]
      simp only [hmat]
      by_cases h1 : s = l.m1 ∧ (∃ t', t' ∈ ts ∧ lower a.N a.options.number t' ≤ i
          ∧ i < upper a.N a.options.number t') ∧ (1 ≤ j ∧ j < a.N)
      · obtain ⟨hs, ⟨t', ht', hr⟩, hj⟩ := h1
        rw [if_pos ⟨hs, ⟨t', ht', hr⟩, hj⟩, if_pos ⟨hs, ⟨t', List.mem_cons_of_mem t ht', hr⟩, hj⟩]
      · rw [if_neg h1]
        by_cases h2 : s = l.m1 ∧ (lower a.N a.options.number t ≤ i
            ∧ i < upper a.N a.options.number t) ∧ (1 ≤ j ∧ j < a.N)
        · rw [if_pos h2, if_pos ⟨h2.1, ⟨t, List.mem_cons_self t ts, h2.2.1⟩, h2.2.2⟩]
        · rw [if_neg h2, if_neg]
          rintro ⟨hs, ⟨t', ht', hr⟩, hj⟩
          rcases List.mem_cons.mp ht' with ht' | ht'
          · exact h2 ⟨hs, ht' ▸ hr, hj⟩
          · exact h1 ⟨hs, ⟨t', ht', hr⟩, hj⟩
    · intro t'
      rw [iB]
      by_cases h1 : t' ∈ ts
      · rw [if_pos h1, if_pos (List.mem_cons_of_mem t h1)]
      · rw [if_neg h1]
        by_cases h2 : t' = t
        · rw [h2, if_pos (List.mem_cons_self t ts)]
          simp only [Function.update_same]
        · have hn : ¬ t' ∈ t :: ts := by
            intro h
            rcases List.mem_cons.mp h with h | h
            · exact h2 h
            · exact h1 h
          rw [if_neg hn]
          simp only [Function.update_noteq h2]
    · intro k
      rw [iC]
      cases hc : computes_residuum v a.options l.term_iteration
      · simp
      · simp only [and_true, if_true]
        by_cases h1 : k ∈ ts
        · rw [if_pos h1, if_pos (List.mem_cons_of_mem t h1)]
        · rw [if_neg h1]
          by_cases h2 : k = t
          · rw [h2, if_pos (List.mem_cons_self t ts)]
            simp only [Function.update_same]
          · have hn : ¬ k ∈ t :: ts := by
              intro h
              rcases List.mem_cons.mp h with h | h
              · exact h2 h
              · exact h1 h
            rw [if_neg hn]
            simp only [Function.update_noteq h2]

/-- The world after the threads of the list `ts` ran the part behind the first barrier. -/
theorem after_barrier_fold (a : shared_args α) (ts : List Nat) :
    ∀ w : world α, ts.Nodup →
      (ts.foldl (fun w t => after_barrier v a t w) w).Matrix = w.Matrix
      ∧ (ts.foldl (fun w t => after_barrier v a t w) w).shared_maxresiduum = w.shared_maxresiduum
      ∧ (∀ t, (ts.foldl (fun w t => after_barrier v a t w) w).thread t
        = if t ∈ ts then after_barrier_locals v a w.shared_maxresiduum (w.thread t)
          else w.thread t) := by
  induction ts with
  | nil => intro w _; simp
  | cons t ts ih =>
    intro w hnd
    have hnd' := List.nodup_cons.mp hnd
    rw [List.foldl_cons, after_barrier_eq]
    obtain ⟨iA, iB, iC⟩ := ih
      { w with
        thread := Function.update w.thread t
          (after_barrier_locals v a w.shared_maxresiduum (w.thread t)) } hnd'.2
    refine ⟨iA, iB, ?_⟩
    intro t'
    rw [iC]
    by_cases h1 : t' ∈ ts
    · have hne : t' ≠ t := fun e => hnd'.1 (e ▸ h1)
      rw [if_pos h1, if_pos (List.mem_cons_of_mem t h1)]
      simp only [Function.update_noteq hne]
    · rw [if_neg h1]
      by_cases h2 : t' = t
      · rw [h2, if_pos (List.mem_cons_self t ts)]
        simp only [Function.update_same]
      · rw [if_neg]
        · simp only [Function.update_noteq h2]
        · intro h
          rcases List.mem_cons.mp h with h | h
          · exact h2 h
          · exact h1 h

theorem before_barrier_fold_stopped (a : shared_args α) (ts : List Nat) :
    ∀ w : world α, (∀ t, t ∈ ts → (w.thread t).term_iteration = 0) →
      ts.foldl (fun w t => before_barrier v sin a t w) w = w := by
  induction ts with
  | nil => intro w _; rfl
  | cons t ts ih =>
    intro w h
    rw [List.foldl_cons, before_barrier_stopped v sin a t w (h t (List.mem_cons_self t ts))]
    exact ih w (fun t' ht' => h t' (List.mem_cons_of_mem t ht'))

theorem lockstep_round_stopped (a : shared_args α) (st : matrix α × thread_locals α)
    (h : st.2.term_iteration = 0) : lockstep_round v sin a st = st := by
  simp [lockstep_round, h]

theorem after_barrier_locals_stopped (a : shared_args α) (sh : Nat → α) (l : thread_locals α)
    (h : l.term_iteration = 0) : after_barrier_locals v a sh l = l := by
  simp [after_barrier_locals, h]

/-- One round of all threads is one lockstep round, when all threads hold the same locals. -/
theorem round_lockstep (a : shared_args α) (hN : 1 ≤ a.N) (hT : 1 ≤ a.options.number)
    (w : world α) (l : thread_locals α) (hall : ∀ t, t < a.options.number → w.thread t = l)
    (hm : l.m1 ≠ l.m2) :
    (round v sin a w).Matrix = (lockstep_round v sin a (w.Matrix, l)).1
    ∧ (∀ t, t < a.options.number →
        (round v sin a w).thread t = (lockstep_round v sin a (w.Matrix, l)).2)
    ∧ (∀ t, a.options.number ≤ t → (round v sin a w).thread t = w.thread t) := by
  have hnd : (List.range a.options.number).Nodup := List.nodup_range _
  rcases Nat.eq_zero_or_pos l.term_iteration with h0 | hrun
  · -- every thread has left its loop
    have hA : (List.range a.options.number).foldl (fun w t => before_barrier v sin a t w) w
        = w := by
      apply before_barrier_fold_stopped
      intro t ht
      rw [hall t (List.mem_range.mp ht)]; exact h0
    obtain ⟨bM, -, bT⟩ := after_barrier_fold v a (List.range a.options.number) w hnd
    simp only [round, hA]
    rw [lockstep_round_stopped v sin a (w.Matrix, l) h0]
    refine ⟨bM, ?_, ?_⟩
    · intro t ht
      rw [bT, if_pos (List.mem_range.mpr ht), hall t ht,
        after_barrier_locals_stopped v a _ l h0]
    · intro t ht
      rw [bT, if_neg (by rw [List.mem_range]; omega)]
  · obtain ⟨aM, aT, aS⟩ := before_barrier_fold v sin a l hrun hm w.Matrix
      (List.range a.options.number) w hnd
      (fun t ht => hall t (List.mem_range.mp ht)) (fun _ _ => rfl)
    obtain ⟨bM, -, bT⟩ := after_barrier_fold v a (List.range a.options.number)
      ((List.range a.options.number).foldl (fun w t => before_barrier v sin a t w) w) hnd
    simp only [round]
    refine ⟨?_, ?_, ?_⟩
    · rw [bM]
      funext s i j
      rw [aM]
      simp only [lockstep_round, gt_iff_lt, hrun, if_true, reference_sweep, List.mem_range]
      have e := mem_range_iff a.N a.options.number hT i
      by_cases hc : s = l.m1 ∧ 1 ≤ i ∧ i < a.N ∧ 1 ≤ j ∧ j < a.N
      · obtain ⟨h1, h2, h3, h4⟩ := hc
        rw [if_pos ⟨h1, e.mpr ⟨h2, by omega⟩, h4⟩, if_pos ⟨h1, h2, h3, h4⟩]
      · have hn : ¬ (s = l.m1 ∧ (∃ t, t < a.options.number ∧ lower a.N a.options.number t ≤ i
            ∧ i < upper a.N a.options.number t) ∧ (1 ≤ j ∧ j < a.N)) := by
          rintro ⟨h1, h2, h4⟩
          have := e.mp h2
          exact hc ⟨h1, this.1, by omega, h4⟩
        rw [if_neg hn, if_neg hc]
    · intro t ht
      rw [bT, if_pos (List.mem_range.mpr ht), aT, if_pos (List.mem_range.mpr ht)]
      simp only [after_barrier_locals, lockstep_round, gt_iff_lt, hrun, if_true]
      cases hc : computes_residuum v a.options l.term_iteration
      · simp [local_maxresiduum, hc]
      · have hred : reduce a.options.number
            ((List.range a.options.number).foldl (fun w t => before_barrier v sin a t w)
              w).shared_maxresiduum
            (local_maxresiduum v sin a l.term_iteration l.m2 w.Matrix t)
            = reference_residual sin a w.Matrix l.m2 := by
          apply reduce_local_maxresiduum v sin a hN l.term_iteration l.m2 hc w.Matrix _ _ t ht
          intro k hk
          rw [aS, if_pos ⟨List.mem_range.mpr hk, hc⟩]
        simp only [if_true, hred]
    · intro t ht
      have hn : ¬ t ∈ List.range a.options.number := by rw [List.mem_range]; omega
      rw [bT, if_neg hn, aT, if_neg hn]

theorem lockstep_round_slots (a : shared_args α) (st : matrix α × thread_locals α)
    (hm : st.2.m1 ≠ st.2.m2) :
    (lockstep_round v sin a st).2.m1 ≠ (lockstep_round v sin a st).2.m2 := by
  by_cases h : 0 < st.2.term_iteration
  · simp only [lockstep_round, gt_iff_lt, h, if_true]
    exact hm.symm
  · simp only [lockstep_round, gt_iff_lt, h, if_false]
    exact hm

theorem lockstep_iterate_slots (a : shared_args α) (st : matrix α × thread_locals α)
    (hm : st.2.m1 ≠ st.2.m2) (k : Nat) :
    ((lockstep_round v sin a)^[k] st).2.m1 ≠ ((lockstep_round v sin a)^[k] st).2.m2 := by
  induction k with
  | zero => exact hm
  | succ n ih =>
    rw [Function.iterate_succ_apply']
    exact lockstep_round_slots v sin a _ ih

/-- After any number of rounds the matrix and the locals of every thread are those of the
lockstep machine. -/
theorem rounds_lockstep (a : shared_args α) (hN : 1 ≤ a.N) (hT : 1 ≤ a.options.number)
    (w : world α) (l : thread_locals α) (hall : ∀ t, t < a.options.number → w.thread t = l)
    (hm : l.m1 ≠ l.m2) (k : Nat) :
    (rounds v sin a k w).Matrix = ((lockstep_round v sin a)^[k] (w.Matrix, l)).1
    ∧ (∀ t, t < a.options.number →
        (rounds v sin a k w).thread t = ((lockstep_round v sin a)^[k] (w.Matrix, l)).2) := by
  induction k with
  | zero => exact ⟨rfl, hall⟩
  | succ n ih =>
    obtain ⟨ihM, ihT⟩ := ih
    have h := round_lockstep v sin a hN hT (rounds v sin a n w) _ ihT
      (lockstep_iterate_slots v sin a (w.Matrix, l) hm n)
    simp only [rounds] at h ihM ⊢
    rw [Function.iterate_succ_apply', Function.iterate_succ_apply']
    rw [ihM] at h
    exact ⟨h.1, h.2.1⟩

/-- In a round that computes the residuum, a running thread publishes its own maximum and
then holds the result of the scan that starts from this published value. -/
theorem round_thread_maxresiduum (a : shared_args α) (w : world α) (l : thread_locals α)
    (hall : ∀ t, t < a.options.number → w.thread t = l) (hm : l.m1 ≠ l.m2)
    (hrun : 0 < l.term_iteration)
    (hc : computes_residuum v a.options l.term_iteration = true) (t : Nat)
    (ht : t < a.options.number) :
    ((List.range a.options.number).foldl (fun w t => before_barrier v sin a t w)
        w).shared_maxresiduum t
      = (((List.range a.options.number).foldl (fun w t => before_barrier v sin a t w)
        w).thread t).maxresiduum
    ∧ ((round v sin a w).thread t).maxresiduum
      = reduce a.options.number
          ((List.range a.options.number).foldl (fun w t => before_barrier v sin a t w)
            w).shared_maxresiduum
          (((List.range a.options.number).foldl (fun w t => before_barrier v sin a t w)
            w).shared_maxresiduum t) := by
  have hnd : (List.range a.options.number).Nodup := List.nodup_range _
  obtain ⟨-, aT, aS⟩ := before_barrier_fold v sin a l hrun hm w.Matrix
    (List.range a.options.number) w hnd
    (fun t ht => hall t (List.mem_range.mp ht)) (fun _ _ => rfl)
  obtain ⟨-, -, bT⟩ := after_barrier_fold v a (List.range a.options.number)
    ((List.range a.options.number).foldl (fun w t => before_barrier v sin a t w) w) hnd
  have hmem := List.mem_range.mpr ht
  have e1 : ((List.range a.options.number).foldl (fun w t => before_barrier v sin a t w)
        w).shared_maxresiduum t
      = (((List.range a.options.number).foldl (fun w t => before_barrier v sin a t w)
        w).thread t).maxresiduum := by
    rw [aS, if_pos ⟨hmem, hc⟩, aT, if_pos hmem]
  refine ⟨e1, ?_⟩
  simp only [round]
  rw [bT, if_pos hmem, e1]
  have hti : (((List.range a.options.number).foldl (fun w t => before_barrier v sin a t w)
        w).thread t).term_iteration = l.term_iteration := by
    rw [aT, if_pos hmem]
  simp only [after_barrier_locals, gt_iff_lt, hti, hrun, hc, if_true]

end round_lemmas

/-! ## The loop of all threads and the reference loop -/

section loop_lemmas

variable {α : Type} [LinearOrderedField α] (v : residuum_rule) (sin : α → α)

theorem after_barrier_stopped (a : shared_args α) (t : Nat) (w : world α)
    (h : (w.thread t).term_iteration = 0) : after_barrier v a t w = w := by
  simp [after_barrier, h]

theorem after_barrier_fold_stopped (a : shared_args α) (ts : List Nat) :
    ∀ w : world α, (∀ t, t ∈ ts → (w.thread t).term_iteration = 0) →
      ts.foldl (fun w t => after_barrier v a t w) w = w := by
  induction ts with
  | nil => intro w _; rfl
  | cons t ts ih =>
    intro w h
    rw [List.foldl_cons, after_barrier_stopped v a t w (h t (List.mem_cons_self t ts))]
    exact ih w (fun t' ht' => h t' (List.mem_cons_of_mem t ht'))

theorem all_stopped_iff {β : Type} (a : shared_args β) (w : world β) :
    all_stopped a w = true ↔ ∀ t, t < a.options.number → (w.thread t).term_iteration = 0 := by
  simp [all_stopped, List.all_eq_true]

/-- When every thread has left its loop, a further round changes nothing. -/
theorem round_of_all_stopped (a : shared_args α) (w : world α) (h : all_stopped a w = true) :
    round v sin a w = w := by
  rw [all_stopped_iff] at h
  have h' : ∀ t, t ∈ List.range a.options.number → (w.thread t).term_iteration = 0 :=
    fun t ht => h t (List.mem_range.mp ht)
  simp only [round]
  rw [before_barrier_fold_stopped v sin a _ w h', after_barrier_fold_stopped v a _ w h']

theorem rounds_of_all_stopped (a : shared_args α) (w : world α) (h : all_stopped a w = true)
    (k : Nat) : rounds v sin a k w = w := by
  induction k with
  | zero => rfl
  | succ n ih =>
    simp only [rounds] at ih ⊢
    rw [Function.iterate_succ_apply', ih, round_of_all_stopped v sin a w h]

theorem rounds_succ (a : shared_args α) (w : world α) (k : Nat) :
    rounds v sin a (k + 1) w = rounds v sin a k (round v sin a w) := by
  simp only [rounds, Function.iterate_succ_apply]

theorem rounds_succ' (a : shared_args α) (w : world α) (k : Nat) :
    rounds v sin a (k + 1) w = round v sin a (rounds v sin a k w) := by
  simp only [rounds, Function.iterate_succ_apply']

/-- The loop returns the world after `k` rounds as soon as all threads have stopped then and
the fuel covers `k` rounds. -/
theorem calculate_loop_some (a : shared_args α) :
    ∀ (fuel k : Nat) (w : world α), k ≤ fuel → all_stopped a (rounds v sin a k w) = true →
      calculate_loop v sin a fuel w = some (rounds v sin a k w) := by
  intro fuel
  induction fuel with
  | zero =>
    intro k w hk h
    have : k = 0 := by omega
    subst this
    simp only [rounds, Function.iterate_zero, id_eq] at h ⊢
    simp [calculate_loop, h]
  | succ n ih =>
    intro k w hk h
    by_cases hs : all_stopped a w = true
    · rw [rounds_of_all_stopped v sin a w hs k]
      simp [calculate_loop, hs]
    · cases k with
      | zero => exact absurd h hs
      | succ k =>
        rw [rounds_succ] at h ⊢
        simp only [calculate_loop, hs]
        exact ih k _ (by omega) h

/-- The loop runs out of fuel when some thread is still running after each of the first
`fuel` rounds. -/
theorem calculate_loop_none (a : shared_args α) :
    ∀ (fuel : Nat) (w : world α),
      (∀ k, k ≤ fuel → all_stopped a (rounds v sin a k w) = false) →
      calculate_loop v sin a fuel w = none := by
  intro fuel
  induction fuel with
  | zero =>
    intro w h
    have := h 0 (le_refl 0)
    simp only [rounds, Function.iterate_zero, id_eq] at this
    simp [calculate_loop, this]
  | succ n ih =>
    intro w h
    have h0 := h 0 (Nat.zero_le _)
    simp only [rounds, Function.iterate_zero, id_eq] at h0
    simp only [calculate_loop, h0]
    apply ih
    intro k hk
    rw [← rounds_succ]
    exact h (k + 1) (by omega)

theorem agrees_round (a : shared_args α) (st : matrix α × thread_locals α)
    (s : reference_state α) (h : agrees st s) :
    agrees (lockstep_round v sin a st) (reference_round sin a s) := by
  obtain ⟨hM, h1, h2, hst, hti, hres⟩ := h
  by_cases hrun : 0 < s.remaining
  · have hrun' : 0 < st.2.term_iteration := by rw [hti]; exact hrun
    have hcomp : a.options.termination = TERM_PREC →
        computes_residuum v a.options st.2.term_iteration = true := by
      intro hp
      cases v <;> simp [computes_residuum, hp]
    simp only [agrees, lockstep_round, reference_round, gt_iff_lt, hrun, hrun', if_true, hM, h1,
      h2, hti]
    refine ⟨trivial, trivial, trivial, ?_, ?_, ?_⟩
    · rw [hst, UINT64_SIZE]; omega
    · by_cases hp : a.options.termination = TERM_PREC
      · have := hcomp hp
        rw [hti] at this
        simp only [hp, if_true, this]
      · simp only [hp, if_false]
    · by_cases hp : a.options.termination = TERM_PREC
      · have := hcomp hp
        rw [hti] at this
        simp only [hp, if_true, this, implies_true]
      · simp only [hp, if_false]
        by_cases hi : a.options.termination = TERM_ITER
        · simp only [hi, if_true]
          intro h0
          have h1 : s.remaining = 1 := by omega
          cases v <;> simp [computes_residuum, h1]
        · simp only [hi, if_false]
          intro h0
          omega
  · have h0 : s.remaining = 0 := by omega
    have h0' : st.2.term_iteration = 0 := by rw [hti]; exact h0
    rw [lockstep_round_stopped v sin a st h0']
    simp only [reference_round, gt_iff_lt, hrun, if_false]
    exact ⟨hM, h1, h2, hst, hti, hres⟩

theorem simulates_round (a : shared_args α) (hN : 1 ≤ a.N) (hT : 1 ≤ a.options.number)
    (w : world α) (s : reference_state α) (h : simulates a w s) :
    simulates a (round v sin a w) (reference_round sin a s) := by
  obtain ⟨l, hall, hm, hag⟩ := h
  obtain ⟨rM, rT, -⟩ := round_lockstep v sin a hN hT w l hall hm
  refine ⟨(lockstep_round v sin a (w.Matrix, l)).2, rT,
    lockstep_round_slots v sin a (w.Matrix, l) hm, ?_⟩
  rw [rM]
  exact agrees_round v sin a (w.Matrix, l) s hag

theorem simulates_stopped {β : Type} (a : shared_args β) (hT : 1 ≤ a.options.number)
    (w : world β) (s : reference_state β) (h : simulates a w s) :
    all_stopped a w = true ↔ s.remaining = 0 := by
  obtain ⟨l, hall, -, -, -, -, -, hti, -⟩ := h
  rw [all_stopped_iff]
  constructor
  · intro h
    have := h 0 (by omega)
    rw [hall 0 (by omega)] at this
    rw [← hti]; exact this
  · intro h t ht
    rw [hall t ht]
    exact hti.trans h

/-- The loop of the threads and the reference loop run out of fuel together, and otherwise end
in states that agree. -/
theorem simulates_loop (a : shared_args α) (hN : 1 ≤ a.N) (hT : 1 ≤ a.options.number) :
    ∀ (fuel : Nat) (w : world α) (s : reference_state α), simulates a w s →
      (calculate_loop v sin a fuel w = none ∧ reference_loop sin a fuel s = none)
      ∨ ∃ w' s', calculate_loop v sin a fuel w = some w' ∧ reference_loop sin a fuel s = some s'
          ∧ simulates a w' s' ∧ s'.remaining = 0 := by
  intro fuel
  induction fuel with
  | zero =>
    intro w s h
    have e := simulates_stopped a hT w s h
    by_cases h0 : s.remaining = 0
    · right
      exact ⟨w, s, by simp [calculate_loop, e.mpr h0], by simp [reference_loop, h0], h, h0⟩
    · left
      have : all_stopped a w = false := by
        cases hs : all_stopped a w
        · rfl
        · exact absurd (e.mp hs) h0
      exact ⟨by simp [calculate_loop, this], by simp [reference_loop, h0]⟩
  | succ n ih =>
    intro w s h
    have e := simulates_stopped a hT w s h
    by_cases h0 : s.remaining = 0
    · right
      exact ⟨w, s, by simp [calculate_loop, e.mpr h0], by simp [reference_loop, h0], h, h0⟩
    · have : all_stopped a w = false := by
        cases hs : all_stopped a w
        · rfl
        · exact absurd (e.mp hs) h0
      simp only [calculate_loop, this, reference_loop, h0, if_false]
      exact ih _ _ (simulates_round v sin a hN hT w s h)

theorem reference_round_congr (a a' : shared_args α) (h : same_problem a a') :
    reference_round sin a = reference_round sin a' := by
  obtain ⟨h1, h2, h3, h4, h5, h6⟩ := h
  have hsweep : ∀ (M : matrix α) (wr rd : Nat),
      reference_sweep sin a M wr rd = reference_sweep sin a' M wr rd := by
    intro M wr rd
    funext s i j
    simp only [reference_sweep, reference_star, reference_source, h1, h2, h3, h4]
  funext s
  simp only [reference_round, reference_residual, residuals, reference_star,
    reference_source, h1, h2, h3, h4, h5, h6, hsweep]

theorem reference_loop_congr (a a' : shared_args α) (h : same_problem a a') :
    ∀ (fuel : Nat) (s : reference_state α),
      reference_loop sin a fuel s = reference_loop sin a' fuel s := by
  intro fuel
  induction fuel with
  | zero => intro s; rfl
  | succ n ih =>
    intro s
    simp only [reference_loop, reference_round_congr sin a a' h, ih]

theorem world_ext {β : Type} (w w' : world β) (h1 : w.Matrix = w'.Matrix)
    (h2 : w.shared_maxresiduum = w'.shared_maxresiduum) (h3 : w.thread = w'.thread) :
    w = w' := by
  cases w
  cases w'
  simp only at h1 h2 h3
  rw [h1, h2, h3]

/-- The order in which the threads run within the two phases of a round does not matter: when
all threads hold the same locals (with two different slots), every order yields the world
that the thread order `0, ..., T - 1` yields. -/
theorem round_in_order_eq (a : shared_args α) (w : world α) (l : thread_locals α)
    (hall : ∀ t, t < a.options.number → w.thread t = l) (hm : l.m1 ≠ l.m2)
    (before after : List Nat) (hb : before.Perm (List.range a.options.number))
    (ha : after.Perm (List.range a.options.number)) :
    round_in_order v sin a before after w = round v sin a w := by
  have hnd : (List.range a.options.number).Nodup := List.nodup_range _
  have hndb : before.Nodup := hb.nodup_iff.mpr hnd
  have hnda : after.Nodup := ha.nodup_iff.mpr hnd
  have hmemb : ∀ t, t ∈ before ↔ t ∈ List.range a.options.number := fun t => hb.mem_iff
  have hmema : ∀ t, t ∈ after ↔ t ∈ List.range a.options.number := fun t => ha.mem_iff
  rcases Nat.eq_zero_or_pos l.term_iteration with h0 | hrun
  · have hs : all_stopped a w = true := by
      rw [all_stopped_iff]
      intro t ht
      rw [hall t ht]; exact h0
    rw [round_of_all_stopped v sin a w hs]
    simp only [round_in_order]
    rw [before_barrier_fold_stopped v sin a before w (fun t ht => by
        rw [hall t (List.mem_range.mp ((hmemb t).mp ht))]; exact h0),
      after_barrier_fold_stopped v a after w (fun t ht => by
        rw [hall t (List.mem_range.mp ((hmema t).mp ht))]; exact h0)]
  · obtain ⟨aM, aT, aS⟩ := before_barrier_fold v sin a l hrun hm w.Matrix before w hndb
      (fun t ht => hall t (List.mem_range.mp ((hmemb t).mp ht))) (fun _ _ => rfl)
    obtain ⟨aM', aT', aS'⟩ := before_barrier_fold v sin a l hrun hm w.Matrix
      (List.range a.options.number) w hnd
      (fun t ht => hall t (List.mem_range.mp ht)) (fun _ _ => rfl)
    have hA : before.foldl (fun w t => before_barrier v sin a t w) w
        = (List.range a.options.number).foldl (fun w t => before_barrier v sin a t w) w := by
      apply world_ext
      · funext s i j
        rw [aM, aM']
        simp only [hmemb]
      · funext k
        rw [aS, aS']
        simp only [hmemb]
      · funext t
        rw [aT, aT']
        simp only [hmemb]
    obtain ⟨bM, bS, bT⟩ := after_barrier_fold v a after
      ((List.range a.options.number).foldl (fun w t => before_barrier v sin a t w) w) hnda
    obtain ⟨bM', bS', bT'⟩ := after_barrier_fold v a (List.range a.options.number)
      ((List.range a.options.number).foldl (fun w t => before_barrier v sin a t w) w) hnd
    simp only [round_in_order, round, hA]
    apply world_ext
    · rw [bM, bM']
    · rw [bS, bS']
    · funext t
      rw [bT, bT']
      simp only [hmema]

end loop_lemmas

/-! ## The course of a solve, round by round -/

section course_lemmas

variable {α : Type} [LinearOrderedField α] (v : residuum_rule) (sin : α → α)

theorem lockstep_succ (a : shared_args α) (M : matrix α) (l : thread_locals α) (k : Nat) :
    lockstep v sin a M l (k + 1) = lockstep_round v sin a (lockstep v sin a M l k) := by
  simp only [lockstep, Function.iterate_succ_apply']

/-- A stopped lockstep machine stays as it is. -/
theorem lockstep_stays (a : shared_args α) (M : matrix α) (l : thread_locals α) (k : Nat)
    (h : (lockstep v sin a M l k).2.term_iteration = 0) (j : Nat) :
    lockstep v sin a M l (k + j) = lockstep v sin a M l k := by
  induction j with
  | zero => rfl
  | succ n ih =>
    rw [← Nat.add_assoc, lockstep_succ, ih, lockstep_round_stopped v sin a _ h]

/-- While the threads are running, round `k + 1` reads slot `(k + 1) % 2` and writes slot
`k % 2` of the `k`-th Jacobi iterate. -/
theorem lockstep_running (a : shared_args α) (M : matrix α) (l : thread_locals α)
    (h1 : l.m1 = 0) (h2 : l.m2 = 1) (h3 : l.stat_iteration = 0) (k : Nat)
    (hrun : ∀ i, i < k → 0 < (lockstep v sin a M l i).2.term_iteration) :
    (lockstep v sin a M l k).1 = jacobi sin a M k
    ∧ (lockstep v sin a M l k).2.m1 = k % 2
    ∧ (lockstep v sin a M l k).2.m2 = (k + 1) % 2
    ∧ (lockstep v sin a M l k).2.stat_iteration = k % UINT64_SIZE := by
  induction k with
  | zero => exact ⟨rfl, h1, h2, h3⟩
  | succ n ih =>
    obtain ⟨iM, i1, i2, i3⟩ := ih (fun i hi => hrun i (by omega))
    have hn := hrun n (by omega)
    rw [lockstep_succ]
    simp only [lockstep_round, gt_iff_lt, hn, if_true, iM, i1, i2, i3, jacobi]
    refine ⟨trivial, trivial, by omega, ?_⟩
    rw [UINT64_SIZE]; omega

/-- The residuum and the remaining rounds after round `k + 1`, while the threads are
running. -/
theorem lockstep_step (a : shared_args α) (M : matrix α) (l : thread_locals α)
    (h1 : l.m1 = 0) (h2 : l.m2 = 1) (h3 : l.stat_iteration = 0) (k : Nat)
    (hrun : 0 < (lockstep v sin a M l k).2.term_iteration) :
    (lockstep v sin a M l (k + 1)).2.maxresiduum
      = (if computes_residuum v a.options (lockstep v sin a M l k).2.term_iteration then
          round_residual sin a M (k + 1) else 0)
    ∧ (lockstep v sin a M l (k + 1)).2.term_iteration
      = (if a.options.termination = TERM_PREC then
          if (lockstep v sin a M l (k + 1)).2.maxresiduum < a.options.term_precision then 0
          else (lockstep v sin a M l k).2.term_iteration
        else if a.options.termination = TERM_ITER then
          (lockstep v sin a M l k).2.term_iteration - 1
        else (lockstep v sin a M l k).2.term_iteration) := by
  have hpre : ∀ i, i < k → 0 < (lockstep v sin a M l i).2.term_iteration := by
    intro i hi
    rcases Nat.eq_zero_or_pos (lockstep v sin a M l i).2.term_iteration with h0 | h0
    · have := lockstep_stays v sin a M l i h0 (k - i)
      rw [Nat.add_sub_cancel' hi.le] at this
      rw [this, h0] at hrun
      exact absurd hrun (lt_irrefl 0)
    · exact h0
  obtain ⟨iM, -, i2, -⟩ := lockstep_running v sin a M l h1 h2 h3 k hpre
  rw [lockstep_succ]
  simp only [lockstep_round, gt_iff_lt, hrun, if_true, iM, i2, round_residual,
    Nat.add_sub_cancel, and_self]

theorem epilogue_fold_tail {β : Type} (w : world β) (ts : List Nat)
    (h : ∀ t, t ∈ ts → t ≠ 0) :
    ∀ r : calculation_results β,
      ts.foldl (fun r t => calculate_t_epilogue t (w.thread t) r) r = r := by
  induction ts with
  | nil => intro r; rfl
  | cons t ts ih =>
    intro r
    rw [List.foldl_cons]
    have : calculate_t_epilogue t (w.thread t) r = r := by
      simp [calculate_t_epilogue, h t (List.mem_cons_self t ts)]
    rw [this]
    exact ih (fun t' ht' => h t' (List.mem_cons_of_mem t ht')) r

/-- With at least one thread, `results` ends up with the values of thread 0. -/
theorem epilogue_fold {β : Type} (w : world β) (T : Nat) (hT : 1 ≤ T)
    (r : calculation_results β) :
    (List.range T).foldl (fun r t => calculate_t_epilogue t (w.thread t) r) r
      = { m := (w.thread 0).m2, stat_iteration := (w.thread 0).stat_iteration,
          stat_precision := (w.thread 0).maxresiduum } := by
  obtain ⟨n, rfl⟩ : ∃ n, T = n + 1 := ⟨T - 1, by omega⟩
  rw [List.range_eq_range', List.range'_succ, List.foldl_cons]
  rw [epilogue_fold_tail w _ (by
    intro t ht
    rw [List.mem_range'_1] at ht
    omega)]
  simp [calculate_t_epilogue]

/-- The threads of `calculate` start in a world that simulates the start of the reference
solver, when the method is Jacobi. -/
theorem calculate_world_simulates (shared0 : Nat → α) (arguments : calculation_arguments α)
    (o : options α) (a : shared_args α)
    (hmethod : o.method = METH_JACOBI) (M_start : matrix α) (hM : arguments.M = M_start)
    (rem : Nat) (hrem : o.term_iteration = rem) :
    simulates a (calculate_world shared0 arguments o)
      { Matrix := M_start, write := 0, read := 1, rounds := 0, remaining := rem,
        residual := 0 } := by
  refine ⟨calculate_t_init o, fun _ _ => rfl, ?_, ?_⟩
  · simp [calculate_t_init, hmethod]
  · simp [agrees, calculate_world, calculate_t_init, hmethod, hM, hrem]

/-- Under the count discipline the remaining rounds go down by one per round. -/
theorem lockstep_count (a : shared_args α) (M : matrix α) (l : thread_locals α)
    (h1 : l.m1 = 0) (h2 : l.m2 = 1) (h3 : l.stat_iteration = 0)
    (hterm : a.options.termination = TERM_ITER) (j : Nat) (hj : j ≤ l.term_iteration) :
    (lockstep v sin a M l j).2.term_iteration = l.term_iteration - j := by
  induction j with
  | zero => rfl
  | succ n ih =>
    have hn := ih (by omega)
    have hrun : 0 < (lockstep v sin a M l n).2.term_iteration := by rw [hn]; omega
    have hne : ¬ TERM_ITER = TERM_PREC := by decide
    rw [(lockstep_step v sin a M l h1 h2 h3 n hrun).2, hn]
    simp only [hterm, hne, if_false, if_true]
    omega

/-- The locals of every thread and the matrix after `k` rounds of `calculate`. -/
theorem calculate_rounds (M_PI : α) (shared0 : Nat → α) (arguments : calculation_arguments α)
    (o : options α) (hmethod : o.method = METH_JACOBI) (hN : 1 ≤ arguments.N)
    (hT : 1 ≤ o.number) (k : Nat) :
    (rounds v sin (calculate_args M_PI arguments o) k
        (calculate_world shared0 arguments o)).Matrix
      = (lockstep v sin (calculate_args M_PI arguments o) arguments.M (calculate_t_init o) k).1
    ∧ ∀ t, t < o.number →
      (rounds v sin (calculate_args M_PI arguments o) k
        (calculate_world shared0 arguments o)).thread t
      = (lockstep v sin (calculate_args M_PI arguments o) arguments.M (calculate_t_init o) k).2 :=
  rounds_lockstep v sin (calculate_args M_PI arguments o) hN hT
    (calculate_world shared0 arguments o) (calculate_t_init o) (fun _ _ => rfl)
    (by simp [calculate_t_init, hmethod]) k

theorem calculate_t_init_slots (o : options α) (hmethod : o.method = METH_JACOBI) :
    (calculate_t_init o).m1 = 0 ∧ (calculate_t_init o).m2 = 1
    ∧ (calculate_t_init o).stat_iteration = 0 := by
  simp [calculate_t_init, hmethod]

/-- Whether all threads have stopped after `k` rounds of `calculate` is read off the lockstep
machine. -/
theorem calculate_all_stopped (M_PI : α) (shared0 : Nat → α)
    (arguments : calculation_arguments α) (o : options α) (hmethod : o.method = METH_JACOBI)
    (hN : 1 ≤ arguments.N) (hT : 1 ≤ o.number) (k : Nat) :
    all_stopped (calculate_args M_PI arguments o)
      (rounds v sin (calculate_args M_PI arguments o) k (calculate_world shared0 arguments o))
      = true
    ↔ (lockstep v sin (calculate_args M_PI arguments o) arguments.M
        (calculate_t_init o) k).2.term_iteration = 0 := by
  obtain ⟨-, hth⟩ := calculate_rounds v sin M_PI shared0 arguments o hmethod hN hT k
  rw [all_stopped_iff]
  constructor
  · intro h
    have := h 0 hT
    rw [hth 0 hT] at this
    exact this
  · intro h t ht
    rw [hth t ht]
    exact h

/-- Under the count discipline `calculate` returns after exactly `term_iteration` rounds. -/
theorem calculate_loop_count (M_PI : α) (shared0 : Nat → α)
    (arguments : calculation_arguments α) (o : options α) (hmethod : o.method = METH_JACOBI)
    (hN : 1 ≤ arguments.N) (hT : 1 ≤ o.number) (hterm : o.termination = TERM_ITER) :
    (∀ fuel, o.term_iteration ≤ fuel →
      calculate_loop v sin (calculate_args M_PI arguments o) fuel
        (calculate_world shared0 arguments o)
      = some (rounds v sin (calculate_args M_PI arguments o) o.term_iteration
          (calculate_world shared0 arguments o)))
    ∧ (∀ fuel, fuel < o.term_iteration →
      calculate_loop v sin (calculate_args M_PI arguments o) fuel
        (calculate_world shared0 arguments o) = none) := by
  obtain ⟨s1, s2, s3⟩ := calculate_t_init_slots o hmethod
  have hcount := lockstep_count v sin (calculate_args M_PI arguments o) arguments.M
    (calculate_t_init o) s1 s2 s3 hterm
  have hti : (calculate_t_init o).term_iteration = o.term_iteration := rfl
  constructor
  · intro fuel hf
    apply calculate_loop_some v sin _ fuel o.term_iteration _ hf
    rw [calculate_all_stopped v sin M_PI shared0 arguments o hmethod hN hT,
      hcount o.term_iteration (le_of_eq hti.symm), hti, Nat.sub_self]
  · intro fuel hf
    apply calculate_loop_none
    intro k hk
    cases hs : all_stopped (calculate_args M_PI arguments o)
      (rounds v sin (calculate_args M_PI arguments o) k (calculate_world shared0 arguments o))
    · rfl
    · rw [calculate_all_stopped v sin M_PI shared0 arguments o hmethod hN hT,
        hcount k (by rw [hti]; omega), hti] at hs
      omega

/-- The function `calculate` returns what the reference solver returns, whatever the thread
count and the residuum rule. -/
theorem calculate_eq_reference (M_PI : α) (shared0 : Nat → α) (fuel : Nat)
    (arguments : calculation_arguments α) (results : calculation_results α) (o : options α)
    (T : Nat) (hmethod : o.method = METH_JACOBI) (hN : 1 ≤ arguments.N) (hT : 1 ≤ T) :
    calculate v sin M_PI shared0 fuel arguments results { o with number := T }
      = (reference_solve sin M_PI fuel arguments o).map
          (fun r => (r.1, { m := r.2.1, stat_iteration := r.2.2.1 % UINT64_SIZE,
                            stat_precision := r.2.2.2 })) := by
  have hsim := calculate_world_simulates shared0 arguments { o with number := T }
    (calculate_args M_PI arguments { o with number := T }) hmethod arguments.M rfl
    o.term_iteration rfl
  have hsame : same_problem (calculate_args M_PI arguments { o with number := T })
      (calculate_args M_PI arguments o) := ⟨rfl, rfl, rfl, rfl, rfl, rfl⟩
  simp only [calculate, reference_solve, reference_start]
  rw [← reference_loop_congr sin _ _ hsame]
  rcases simulates_loop v sin
    (calculate_args M_PI arguments { o with number := T }) hN hT fuel _ _ hsim with
    ⟨e1, e2⟩ | ⟨w', s', e1, e2, ⟨l, hall, -, hM, -, h2, hst, -, hres⟩, h0⟩
  · rw [e1, e2]; rfl
  · rw [e1, e2]
    simp only [Option.map_some']
    rw [epilogue_fold w' T hT results, hall 0 hT]
    simp only at hM h2 hst hres
    rw [hM, h2, hst, hres h0]

/-- Under the precision discipline the remaining rounds keep their initial value until the
first round whose residual is below the threshold, and are zero from then on. -/
theorem lockstep_prec (a : shared_args α) (M : matrix α) (l : thread_locals α)
    (h1 : l.m1 = 0) (h2 : l.m2 = 1) (h3 : l.stat_iteration = 0)
    (hterm : a.options.termination = TERM_PREC) (hpos : 0 < l.term_iteration) (k : Nat) :
    ((∀ j, 1 ≤ j → j ≤ k → a.options.term_precision ≤ round_residual sin a M j) →
      (lockstep v sin a M l k).2.term_iteration = l.term_iteration)
    ∧ ((∃ j, 1 ≤ j ∧ j ≤ k ∧ round_residual sin a M j < a.options.term_precision) →
      (lockstep v sin a M l k).2.term_iteration = 0) := by
  induction k with
  | zero =>
    refine ⟨fun _ => rfl, ?_⟩
    rintro ⟨j, hj1, hj2, -⟩
    omega
  | succ n ih =>
    obtain ⟨ihA, ihB⟩ := ih
    have hcomp : ∀ ti, computes_residuum v a.options ti = true := by
      intro ti
      cases v <;> simp [computes_residuum, hterm]
    have hstep : 0 < (lockstep v sin a M l n).2.term_iteration →
        (lockstep v sin a M l (n + 1)).2.term_iteration
          = if round_residual sin a M (n + 1) < a.options.term_precision then 0
            else (lockstep v sin a M l n).2.term_iteration := by
      intro hrun
      obtain ⟨e1, e2⟩ := lockstep_step v sin a M l h1 h2 h3 n hrun
      rw [e2, e1]
      simp only [hterm, if_true, hcomp]
    constructor
    · intro hall
      have hn := ihA (fun j hj1 hj2 => hall j hj1 (by omega))
      rw [hstep (by rw [hn]; exact hpos), hn,
        if_neg (not_lt.mpr (hall (n + 1) (by omega) (le_refl _)))]
    · rintro ⟨j, hj1, hj2, hlt⟩
      by_cases hex : ∃ j, 1 ≤ j ∧ j ≤ n ∧ round_residual sin a M j < a.options.term_precision
      · have h0 := ihB hex
        have := lockstep_stays v sin a M l n h0 1
        rw [this, h0]
      · have hjn : j = n + 1 := by
          by_contra hne
          exact hex ⟨j, hj1, by omega, hlt⟩
        rw [hjn] at hlt
        have hn := ihA (fun j' hj1' hj2' => by
          by_contra hc
          exact hex ⟨j', hj1', hj2', not_le.mp hc⟩)
        rw [hstep (by rw [hn]; exact hpos), if_pos hlt]

/-- A running lockstep machine was running in all rounds before. -/
theorem lockstep_running_before (a : shared_args α) (M : matrix α) (l : thread_locals α)
    (k : Nat) (hrun : 0 < (lockstep v sin a M l k).2.term_iteration) (i : Nat) (hi : i ≤ k) :
    0 < (lockstep v sin a M l i).2.term_iteration := by
  rcases Nat.eq_zero_or_pos (lockstep v sin a M l i).2.term_iteration with h0 | h0
  · have := lockstep_stays v sin a M l i h0 (k - i)
    rw [Nat.add_sub_cancel' hi] at this
    rw [this, h0] at hrun
    exact absurd hrun (lt_irrefl 0)
  · exact h0

/-- The round in which the threads stop computes the residuum. -/
theorem lockstep_last_round_computes (a : shared_args α) (M : matrix α) (l : thread_locals α)
    (h1 : l.m1 = 0) (h2 : l.m2 = 1) (h3 : l.stat_iteration = 0) (k : Nat)
    (hrun : 0 < (lockstep v sin a M l k).2.term_iteration)
    (hstop : (lockstep v sin a M l (k + 1)).2.term_iteration = 0) :
    computes_residuum v a.options (lockstep v sin a M l k).2.term_iteration = true := by
  have e := (lockstep_step v sin a M l h1 h2 h3 k hrun).2
  rw [hstop] at e
  by_cases hp : a.options.termination = TERM_PREC
  · cases v <;> simp [computes_residuum, hp]
  · simp only [hp, if_false] at e
    by_cases hi : a.options.termination = TERM_ITER
    · simp only [hi, if_true] at e
      have : (lockstep v sin a M l k).2.term_iteration = 1 := by omega
      cases v <;> simp [computes_residuum, this]
    · simp only [hi, if_false] at e
      omega

/-- The state in which the lockstep machine stops after `k + 1` rounds. -/
theorem lockstep_exit (a : shared_args α) (M : matrix α) (l : thread_locals α)
    (h1 : l.m1 = 0) (h2 : l.m2 = 1) (h3 : l.stat_iteration = 0) (k : Nat)
    (hrun : 0 < (lockstep v sin a M l k).2.term_iteration)
    (hstop : (lockstep v sin a M l (k + 1)).2.term_iteration = 0) :
    (lockstep v sin a M l (k + 1)).1 = jacobi sin a M (k + 1)
    ∧ (lockstep v sin a M l (k + 1)).2.m2 = k % 2
    ∧ (lockstep v sin a M l k).2.m1 = k % 2
    ∧ (lockstep v sin a M l (k + 1)).2.stat_iteration = (k + 1) % UINT64_SIZE
    ∧ (lockstep v sin a M l (k + 1)).2.maxresiduum = round_residual sin a M (k + 1) := by
  have hpre : ∀ i, i < k + 1 → 0 < (lockstep v sin a M l i).2.term_iteration :=
    fun i hi => lockstep_running_before v sin a M l k hrun i (by omega)
  obtain ⟨rM, -, r2, r3⟩ := lockstep_running v sin a M l h1 h2 h3 (k + 1) hpre
  obtain ⟨-, q1, -, -⟩ := lockstep_running v sin a M l h1 h2 h3 k
    (fun i hi => hpre i (by omega))
  refine ⟨rM, by rw [r2]; omega, q1, r3, ?_⟩
  rw [(lockstep_step v sin a M l h1 h2 h3 k hrun).1,
    lockstep_last_round_computes v sin a M l h1 h2 h3 k hrun hstop, if_pos rfl]

/-- What `calculate` returns when the threads stop after `k + 1` rounds. -/
theorem calculate_exit (M_PI : α) (shared0 : Nat → α) (arguments : calculation_arguments α)
    (results : calculation_results α) (o : options α) (hmethod : o.method = METH_JACOBI)
    (hN : 1 ≤ arguments.N) (hT : 1 ≤ o.number) (k : Nat)
    (hrun : all_stopped (calculate_args M_PI arguments o)
      (rounds v sin (calculate_args M_PI arguments o) k (calculate_world shared0 arguments o))
      = false)
    (hstop : all_stopped (calculate_args M_PI arguments o)
      (rounds v sin (calculate_args M_PI arguments o) (k + 1)
        (calculate_world shared0 arguments o)) = true) :
    (∀ fuel, k + 1 ≤ fuel →
      calculate v sin M_PI shared0 fuel arguments results o
        = some (jacobi sin (calculate_args M_PI arguments o) arguments.M (k + 1),
            { m := k % 2, stat_iteration := (k + 1) % UINT64_SIZE,
              stat_precision :=
                round_residual sin (calculate_args M_PI arguments o) arguments.M (k + 1) }))
    ∧ (∀ fuel, fuel ≤ k → calculate v sin M_PI shared0 fuel arguments results o = none)
    ∧ ((rounds v sin (calculate_args M_PI arguments o) k
        (calculate_world shared0 arguments o)).thread 0).m1 = k % 2 := by
  obtain ⟨s1, s2, s3⟩ := calculate_t_init_slots o hmethod
  have hstop' := (calculate_all_stopped v sin M_PI shared0 arguments o hmethod hN hT
    (k + 1)).mp hstop
  have hrun' : 0 < (lockstep v sin (calculate_args M_PI arguments o) arguments.M
      (calculate_t_init o) k).2.term_iteration := by
    rcases Nat.eq_zero_or_pos (lockstep v sin (calculate_args M_PI arguments o) arguments.M
      (calculate_t_init o) k).2.term_iteration with h0 | h0
    · rw [(calculate_all_stopped v sin M_PI shared0 arguments o hmethod hN hT k).mpr h0] at hrun
      exact absurd hrun (by decide)
    · exact h0
  obtain ⟨eM, e2, e1, est, eres⟩ := lockstep_exit v sin (calculate_args M_PI arguments o)
    arguments.M (calculate_t_init o) s1 s2 s3 k hrun' hstop'
  obtain ⟨cM, cT⟩ := calculate_rounds v sin M_PI shared0 arguments o hmethod hN hT (k + 1)
  refine ⟨?_, ?_, ?_⟩
  · intro fuel hf
    simp only [calculate]
    rw [calculate_loop_some v sin _ fuel (k + 1) _ hf hstop]
    simp only [Option.map_some']
    rw [epilogue_fold _ o.number hT results, cM, cT 0 hT, eM, e2, est, eres]
  · intro fuel hf
    simp only [calculate]
    rw [calculate_loop_none v sin _ fuel]
    · rfl
    · intro i hi
      cases hs : all_stopped (calculate_args M_PI arguments o)
        (rounds v sin (calculate_args M_PI arguments o) i (calculate_world shared0 arguments o))
      · rfl
      · have h0 := (calculate_all_stopped v sin M_PI shared0 arguments o hmethod hN hT i).mp hs
        have := lockstep_running_before v sin _ _ _ k hrun' i (by omega)
        omega
  · rw [(calculate_rounds v sin M_PI shared0 arguments o hmethod hN hT k).2 0 hT, e1]

/-- Under the count discipline with `term_iteration ≥ 1` the threads are running after
`term_iteration - 1` rounds and stopped after `term_iteration` rounds. -/
theorem count_exit (M_PI : α) (shared0 : Nat → α) (arguments : calculation_arguments α)
    (o : options α) (hmethod : o.method = METH_JACOBI) (hN : 1 ≤ arguments.N)
    (hT : 1 ≤ o.number) (hterm : o.termination = TERM_ITER) (hc : 1 ≤ o.term_iteration) :
    all_stopped (calculate_args M_PI arguments o)
      (rounds v sin (calculate_args M_PI arguments o) (o.term_iteration - 1)
        (calculate_world shared0 arguments o)) = false
    ∧ all_stopped (calculate_args M_PI arguments o)
      (rounds v sin (calculate_args M_PI arguments o) o.term_iteration
        (calculate_world shared0 arguments o)) = true := by
  obtain ⟨s1, s2, s3⟩ := calculate_t_init_slots o hmethod
  have hcount := lockstep_count v sin (calculate_args M_PI arguments o) arguments.M
    (calculate_t_init o) s1 s2 s3 hterm
  have hti : (calculate_t_init o).term_iteration = o.term_iteration := rfl
  constructor
  · cases hs : all_stopped (calculate_args M_PI arguments o)
      (rounds v sin (calculate_args M_PI arguments o) (o.term_iteration - 1)
        (calculate_world shared0 arguments o))
    · rfl
    · rw [calculate_all_stopped v sin M_PI shared0 arguments o hmethod hN hT,
        hcount _ (by rw [hti]; omega), hti] at hs
      omega
  · rw [calculate_all_stopped v sin M_PI shared0 arguments o hmethod hN hT,
      hcount _ (le_of_eq hti.symm), hti, Nat.sub_self]

/-- In the final matrix of a solve that stops after `k + 1` rounds, the difference between the
read slot and the written slot at a cell is the residual of that cell in round `k + 1`. -/
theorem jacobi_succ_difference (a : shared_args α) (M : matrix α) (k i j : Nat)
    (hi : 1 ≤ i ∧ i < a.N) (hj : 1 ≤ j ∧ j < a.N) :
    abs (jacobi sin a M (k + 1) ((k + 1) % 2) i j - jacobi sin a M (k + 1) (k % 2) i j)
      = abs (jacobi sin a M k ((k + 1) % 2) i j
          - reference_star sin a (jacobi sin a M k) ((k + 1) % 2) i j) := by
  have hne : ¬ (k + 1) % 2 = k % 2 := by omega
  simp only [jacobi, reference_sweep, hne, false_and, if_false]
  rw [if_pos ⟨trivial, hi.1, hi.2, hj.1, hj.2⟩]

/-- Under `TERM_PREC` the options that `askParams` returns have `term_iteration` set to
`MAX_ITERATION` and the scanned threshold as `term_precision`. -/
theorem askParams_prec (number method interlines inf_func : Nat) (arg_prec : α) (arg_iter : Nat)
    (o : options α)
    (h : askParams number method interlines inf_func TERM_PREC arg_prec arg_iter = some o) :
    o.termination = TERM_PREC ∧ o.term_iteration = MAX_ITERATION
    ∧ o.term_precision = arg_prec := by
  simp only [askParams] at h
  split_ifs at h
  injection h with h
  subst h
  exact ⟨rfl, rfl, rfl⟩

end course_lemmas

/-- Claim C1: the row ranges of `calculate_t` tile the interior rows.  For `N - 1 ≥ 1` rows and
`1 ≤ T ≤ N - 1` threads, `lower 0 = 1`, `upper t = lower (t + 1)` for `t < T - 1`,
`upper (T - 1) = (N - 1) + 1`, the ranges of different threads are disjoint, and a row lies in
some range exactly when it is one of the rows `1, ..., N - 1`. -/
theorem C1_row_ranges_tile (N T : Nat) (_hrows : 1 ≤ N - 1) (hT : 1 ≤ T) (_hTN : T ≤ N - 1) :
    lower N T 0 = 1
    ∧ (∀ t, t < T - 1 → upper N T t = lower N T (t + 1))
    ∧ upper N T (T - 1) = (N - 1) + 1
    ∧ (∀ t t' i, t < T → t' < T → t ≠ t' →
        ¬ ((lower N T t ≤ i ∧ i < upper N T t) ∧ (lower N T t' ≤ i ∧ i < upper N T t')))
    ∧ (∀ i, (∃ t, t < T ∧ lower N T t ≤ i ∧ i < upper N T t) ↔ (1 ≤ i ∧ i ≤ N - 1)) := by
  refine ⟨lower_zero N T, fun t _ => upper_eq_lower_succ N T t, upper_last N T hT, ?_,
    mem_range_iff N T hT⟩
  rintro t t' i - - hne ⟨⟨h1, h2⟩, h3, h4⟩
  rcases Nat.lt_or_gt_of_ne hne with h | h
  · exact ranges_disjoint N T h i h2 h3
  · exact ranges_disjoint N T h i h4 h1

theorem C1_row_ranges_tile_witness :
    lower 8 3 0 = 1
    ∧ (∀ t, t < 3 - 1 → upper 8 3 t = lower 8 3 (t + 1))
    ∧ upper 8 3 (3 - 1) = (8 - 1) + 1
    ∧ (∀ t t' i, t < 3 → t' < 3 → t ≠ t' →
        ¬ ((lower 8 3 t ≤ i ∧ i < upper 8 3 t) ∧ (lower 8 3 t' ≤ i ∧ i < upper 8 3 t')))
    ∧ (∀ i, (∃ t, t < 3 ∧ lower 8 3 t ≤ i ∧ i < upper 8 3 t) ↔ (1 ≤ i ∧ i ≤ 8 - 1)) :=
  C1_row_ranges_tile 8 3 (by decide) (by decide) (by decide)

/-- Claim C2: the sizes of the row ranges.  For `N - 1 ≥ 1` rows, `1 ≤ T ≤ N - 1` and `t < T`,
with `count = (N - 1) / T` and `remainder = (N - 1) % T`, the range of thread `t` starts at
`1 + t * count + min t remainder` and has `count + 1` rows when `t < remainder` and `count` rows
otherwise; so the sizes of any two ranges differ by at most one. -/
theorem C2_row_range_sizes (N T : Nat) (_hrows : 1 ≤ N - 1) (_hT : 1 ≤ T) (_hTN : T ≤ N - 1) :
    (∀ t, t < T →
      lower N T t = 1 + t * ((N - 1) / T) + min t ((N - 1) % T)
      ∧ upper N T t - lower N T t = (N - 1) / T + (if t < (N - 1) % T then 1 else 0)
      ∧ lower N T t ≤ upper N T t)
    ∧ (∀ t t', t < T → t' < T →
        (upper N T t - lower N T t) ≤ (upper N T t' - lower N T t') + 1) := by
  constructor
  · intro t _
    refine ⟨lower_eq N T t, ?_, lower_le_upper N T t⟩
    rw [upper_eq, Nat.add_assoc, Nat.add_sub_cancel_left]
  · intro t t' _ _
    rw [upper_eq N T t, upper_eq N T t', Nat.add_assoc, Nat.add_sub_cancel_left, Nat.add_assoc,
      Nat.add_sub_cancel_left]
    split_ifs <;> omega

theorem C2_row_range_sizes_witness :
    (∀ t, t < 3 →
      lower 8 3 t = 1 + t * ((8 - 1) / 3) + min t ((8 - 1) % 3)
      ∧ upper 8 3 t - lower 8 3 t = (8 - 1) / 3 + (if t < (8 - 1) % 3 then 1 else 0)
      ∧ lower 8 3 t ≤ upper 8 3 t)
    ∧ (∀ t t', t < 3 → t' < 3 →
        (upper 8 3 t - lower 8 3 t) ≤ (upper 8 3 t' - lower 8 3 t') + 1) :=
  C2_row_range_sizes 8 3 (by decide) (by decide) (by decide)

/-! ## The residual does not grow -/

section residual_lemmas

variable {α : Type} [LinearOrderedField α] (sin : α → α)

theorem abs_quarter_sum_le (r x1 x2 x3 x4 : α) (h1 : abs x1 ≤ r) (h2 : abs x2 ≤ r)
    (h3 : abs x3 ≤ r) (h4 : abs x4 ≤ r) : abs ((1 / 4) * (x1 + x2 + x3 + x4)) ≤ r := by
  rw [abs_le] at h1 h2 h3 h4 ⊢
  constructor <;> linarith [h1.1, h1.2, h2.1, h2.2, h3.1, h3.2, h4.1, h4.2]

/-- After a sweep from slot `rd` into slot `wr`, the written slot differs from the read slot
at no cell of the grid by more than the residual of the sweep, when the two slots agree on
the border. -/
theorem sweep_difference_le (a : shared_args α) (M : matrix α) (wr rd : Nat)
    (hb : ∀ i j, i ≤ a.N → j ≤ a.N → (i = 0 ∨ i = a.N ∨ j = 0 ∨ j = a.N) → M wr i j = M rd i j)
    (p q : Nat) (hp : p ≤ a.N) (hq : q ≤ a.N) :
    abs (M rd p q - reference_sweep sin a M wr rd wr p q) ≤ reference_residual sin a M rd := by
  obtain ⟨-, hnonneg, hub⟩ := reference_residual_spec sin a M rd
  by_cases hint : (1 ≤ p ∧ p < a.N) ∧ (1 ≤ q ∧ q < a.N)
  · simp only [reference_sweep]
    rw [if_pos ⟨trivial, hint.1.1, hint.1.2, hint.2.1, hint.2.2⟩]
    exact hub p q hint
  · have hborder : p = 0 ∨ p = a.N ∨ q = 0 ∨ q = a.N := by omega
    simp only [reference_sweep]
    rw [if_neg (by rintro ⟨-, h1, h2, h3, h4⟩; exact hint ⟨⟨h1, h2⟩, h3, h4⟩),
      hb p q hp hq hborder, sub_self, abs_zero]
    exact hnonneg

/-- The residual of a sweep that reads what the previous sweep wrote is at most the residual of
the previous sweep, when the two slots agree on the border. -/
theorem reference_residual_sweep_le (a : shared_args α) (M : matrix α) (wr rd : Nat)
    (hb : ∀ i j, i ≤ a.N → j ≤ a.N → (i = 0 ∨ i = a.N ∨ j = 0 ∨ j = a.N) → M wr i j = M rd i j) :
    reference_residual sin a (reference_sweep sin a M wr rd) wr
      ≤ reference_residual sin a M rd := by
  obtain ⟨hmem, -, -⟩ := reference_residual_spec sin a (reference_sweep sin a M wr rd) wr
  obtain ⟨-, hnonneg, -⟩ := reference_residual_spec sin a M rd
  rcases hmem with h0 | ⟨i, j, ⟨hi, hj⟩, h⟩
  · rw [h0]; exact hnonneg
  · rw [h]
    have hd := sweep_difference_le sin a M wr rd hb
    have hcell : reference_sweep sin a M wr rd wr i j = reference_star sin a M rd i j := by
      simp only [reference_sweep]
      rw [if_pos ⟨trivial, hi.1, hi.2, hj.1, hj.2⟩]
    have e : reference_sweep sin a M wr rd wr i j
        - reference_star sin a (reference_sweep sin a M wr rd) wr i j
        = (1 / 4) * ((M rd (i - 1) j - reference_sweep sin a M wr rd wr (i - 1) j)
          + (M rd i (j - 1) - reference_sweep sin a M wr rd wr i (j - 1))
          + (M rd i (j + 1) - reference_sweep sin a M wr rd wr i (j + 1))
          + (M rd (i + 1) j - reference_sweep sin a M wr rd wr (i + 1) j)) := by
      rw [hcell]
      simp only [reference_star]
      ring
    beta_reduce
    rw [e]
    exact abs_quarter_sum_le _ _ _ _ _ (hd (i - 1) j (by omega) (by omega))
      (hd i (j - 1) (by omega) (by omega)) (hd i (j + 1) (by omega) (by omega))
      (hd (i + 1) j (by omega) (by omega))

/-- The sweeps leave the border cells of both slots as they are. -/
theorem jacobi_border (a : shared_args α) (M : matrix α) (k s i j : Nat)
    (h : i = 0 ∨ a.N ≤ i ∨ j = 0 ∨ a.N ≤ j) : jacobi sin a M k s i j = M s i j := by
  induction k with
  | zero => rfl
  | succ n ih =>
    simp only [jacobi, reference_sweep]
    rw [if_neg (by rintro ⟨-, h1, h2, h3, h4⟩; omega), ih]

/-- From the second round on, the global maximum residual of a round is at most that of the
round before, when the two slots agree on the border at the start. -/
theorem round_residual_succ_le (a : shared_args α) (M : matrix α) (hb : same_border a.N M)
    (k : Nat) (hk : 1 ≤ k) :
    round_residual sin a M (k + 1) ≤ round_residual sin a M k := by
  obtain ⟨n, rfl⟩ : ∃ n, k = n + 1 := ⟨k - 1, by omega⟩
  simp only [round_residual, Nat.add_sub_cancel]
  have hslot : (n + 1 + 1) % 2 = n % 2 := by omega
  rw [hslot]
  show reference_residual sin a (reference_sweep sin a (jacobi sin a M n) (n % 2) ((n + 1) % 2))
    (n % 2) ≤ reference_residual sin a (jacobi sin a M n) ((n + 1) % 2)
  apply reference_residual_sweep_le sin a (jacobi sin a M n) (n % 2) ((n + 1) % 2)
  intro i j hi hj hborder
  have hbd : i = 0 ∨ a.N ≤ i ∨ j = 0 ∨ a.N ≤ j := by omega
  rw [jacobi_border sin a M n _ i j hbd, jacobi_border sin a M n _ i j hbd]
  rcases Nat.mod_two_eq_zero_or_one n with h0 | h1
  · have h1 : (n + 1) % 2 = 1 := by omega
    rw [h0, h1]; exact hb i j hi hj hborder
  · have h0 : (n + 1) % 2 = 0 := by omega
    rw [h1, h0]; exact (hb i j hi hj hborder).symm

end residual_lemmas

/-! ## What initMatrices leaves in the matrix -/

section init_lemmas

variable {α : Type} [LinearOrderedField α]

/-- In a loop over `0, ..., n - 1`, a cell has the value that iteration `i` gives it when no
later iteration changes it. -/
theorem foldl_range_last (f : matrix α → Nat → matrix α) (g r c i : Nat) (n : Nat) :
    ∀ M : matrix α, i < n → (∀ k M', i < k → k < n → f M' k g r c = M' g r c) →
      (List.range n).foldl f M g r c = f ((List.range i).foldl f M) i g r c := by
  induction n with
  | zero => intro M hi; omega
  | succ n ih =>
    intro M hi hlater
    rw [List.range_succ, List.foldl_append, List.foldl_cons, List.foldl_nil]
    rcases Nat.lt_or_ge i n with h | h
    · rw [hlater n _ h (Nat.lt_succ_self n)]
      exact ih M h (fun k M' h1 h2 => hlater k M' h1 (by omega))
    · have : i = n := by omega
      rw [this]

/-- In a loop, a cell that no iteration changes keeps its value. -/
theorem foldl_untouched {β : Type} (f : matrix β → Nat → matrix β) (g r c : Nat)
    (l : List Nat) :
    ∀ M : matrix β, (∀ k M', k ∈ l → f M' k g r c = M' g r c) → l.foldl f M g r c = M g r c := by
  induction l with
  | nil => intro M _; rfl
  | cons k l ih =>
    intro M h
    rw [List.foldl_cons, ih (f M k) (fun k' M' hk' => h k' M' (List.mem_cons_of_mem k hk')),
      h k M (List.mem_cons_self k l)]

theorem initMatrices_border_apply (N : Nat) (h : α) (g : Nat) (M : matrix α) (i g' r c : Nat) :
    initMatrices_border N h g M i g' r c
      = if g' = g ∧ r = N ∧ c = i then h * (i : α)
        else if g' = g ∧ r = 0 ∧ c = i then 1 - h * (i : α)
        else if g' = g ∧ r = i ∧ c = N then h * (i : α)
        else if g' = g ∧ r = i ∧ c = 0 then 1 - h * (i : α)
        else M g' r c := rfl

/-- Iteration `i` of the border loop of matrix `g` changes only the cells `(i, 0)`, `(i, N)`,
`(0, i)` and `(N, i)` of matrix `g`. -/
theorem initMatrices_border_untouched (N : Nat) (h : α) (g : Nat) (M : matrix α)
    (i g' r c : Nat)
    (hn : ¬ (g' = g ∧ ((r = i ∧ c = 0) ∨ (r = i ∧ c = N) ∨ (r = 0 ∧ c = i) ∨ (r = N ∧ c = i)))) :
    initMatrices_border N h g M i g' r c = M g' r c := by
  rw [initMatrices_border_apply]
  rw [if_neg (fun hc => hn ⟨hc.1, Or.inr (Or.inr (Or.inr hc.2))⟩),
    if_neg (fun hc => hn ⟨hc.1, Or.inr (Or.inr (Or.inl hc.2))⟩),
    if_neg (fun hc => hn ⟨hc.1, Or.inr (Or.inl hc.2)⟩),
    if_neg (fun hc => hn ⟨hc.1, Or.inl hc.2⟩)]

/-- The border loop of matrix `g` leaves `border_value` in every border cell of matrix `g`
other than the corners `(0, N)` and `(N, 0)`. -/
theorem border_loop_value (N : Nat) (hN : 1 ≤ N) (h : α) (g : Nat) (M : matrix α) (r c : Nat)
    (hr : r ≤ N) (hc : c ≤ N) (hb : r = 0 ∨ r = N ∨ c = 0 ∨ c = N)
    (hcorner : ¬ ((r = 0 ∧ c = N) ∨ (r = N ∧ c = 0))) :
    (List.range (N + 1)).foldl (initMatrices_border N h g) M g r c = border_value N h r c := by
  simp only [border_value, hcorner, if_false]
  by_cases h0 : r = 0
  · -- row 0, column c < N: written in iteration c
    have hcN : c ≠ N := fun e => hcorner (Or.inl ⟨h0, e⟩)
    rw [foldl_range_last (initMatrices_border N h g) g r c c (N + 1) M (by omega)
      (fun k M' h1 h2 => initMatrices_border_untouched N h g M' k g r c (by
        rintro ⟨-, ⟨e1, e2⟩ | ⟨e1, e2⟩ | ⟨e1, e2⟩ | ⟨e1, e2⟩⟩ <;> omega))]
    rw [initMatrices_border_apply, if_neg (by rintro ⟨-, e1, -⟩; omega),
      if_pos ⟨rfl, h0, rfl⟩, if_pos h0]
  · by_cases hrN : r = N
    · -- row N, column c > 0: written in iteration c
      have hc0 : c ≠ 0 := fun e => hcorner (Or.inr ⟨hrN, e⟩)
      rw [foldl_range_last (initMatrices_border N h g) g r c c (N + 1) M (by omega)
        (fun k M' h1 h2 => initMatrices_border_untouched N h g M' k g r c (by
          rintro ⟨-, ⟨e1, e2⟩ | ⟨e1, e2⟩ | ⟨e1, e2⟩ | ⟨e1, e2⟩⟩ <;> omega))]
      rw [initMatrices_border_apply, if_pos ⟨rfl, hrN, rfl⟩, if_neg h0, if_pos hrN]
    · rw [if_neg h0, if_neg hrN]
      by_cases hc0 : c = 0
      · -- column 0, row 0 < r < N: written in iteration r
        rw [foldl_range_last (initMatrices_border N h g) g r c r (N + 1) M (by omega)
          (fun k M' h1 h2 => initMatrices_border_untouched N h g M' k g r c (by
            rintro ⟨-, ⟨e1, e2⟩ | ⟨e1, e2⟩ | ⟨e1, e2⟩ | ⟨e1, e2⟩⟩ <;> omega))]
        rw [initMatrices_border_apply, if_neg (by rintro ⟨-, e1, -⟩; omega),
          if_neg (by rintro ⟨-, e1, -⟩; omega), if_neg (by rintro ⟨-, -, e1⟩; omega),
          if_pos ⟨rfl, rfl, hc0⟩, if_pos hc0]
      · -- column N, row 0 < r < N: written in iteration r
        have hcN : c = N := by omega
        rw [foldl_range_last (initMatrices_border N h g) g r c r (N + 1) M (by omega)
          (fun k M' h1 h2 => initMatrices_border_untouched N h g M' k g r c (by
            rintro ⟨-, ⟨e1, e2⟩ | ⟨e1, e2⟩ | ⟨e1, e2⟩ | ⟨e1, e2⟩⟩ <;> omega))]
        rw [initMatrices_border_apply, if_neg (by rintro ⟨-, e1, -⟩; omega),
          if_neg (by rintro ⟨-, e1, -⟩; omega), if_pos ⟨rfl, rfl, hcN⟩, if_neg hc0]

theorem matrix_set_apply {β : Type} (M : matrix β) (m i j : Nat) (x : β) (m' i' j' : Nat) :
    matrix_set M m i j x m' i' j' = if m' = m ∧ i' = i ∧ j' = j then x else M m' i' j' := rfl

/-- The pass over matrix `g` leaves `border_value` in every border cell of matrix `g`. -/
theorem init_border_pass_value (N : Nat) (hN : 1 ≤ N) (h : α) (g : Nat) (M : matrix α)
    (r c : Nat) (hr : r ≤ N) (hc : c ≤ N) (hb : r = 0 ∨ r = N ∨ c = 0 ∨ c = N) :
    init_border_pass N h M g g r c = border_value N h r c := by
  simp only [init_border_pass, matrix_set_apply]
  by_cases h1 : r = 0 ∧ c = N
  · rw [if_pos ⟨trivial, h1.1, h1.2⟩]
    simp only [border_value, h1, true_and, true_or, if_true]
  · rw [if_neg (fun hc' => h1 hc'.2)]
    by_cases h2 : r = N ∧ c = 0
    · rw [if_pos ⟨trivial, h2.1, h2.2⟩]
      simp only [border_value, h2, true_and, or_true, if_true]
    · rw [if_neg (fun hc' => h2 hc'.2)]
      exact border_loop_value N hN h g M r c hr hc hb (by
        rintro (h' | h')
        · exact h1 h'
        · exact h2 h')

/-- The pass over matrix `g` leaves every other matrix as it is. -/
theorem init_border_pass_other (N : Nat) (h : α) (g : Nat) (M : matrix α) (g' r c : Nat)
    (hg : g' ≠ g) : init_border_pass N h M g g' r c = M g' r c := by
  simp only [init_border_pass, matrix_set_apply]
  rw [if_neg (fun hc => hg hc.1), if_neg (fun hc => hg hc.1)]
  exact foldl_untouched _ g' r c _ M
    (fun k M' _ => initMatrices_border_untouched N h g M' k g' r c (fun hc => hg hc.1))

theorem initMatrices_M (arguments : calculation_arguments α) (o : options α) :
    (initMatrices arguments o).M
      = if o.inf_func = FUNC_F0 then
          (List.range arguments.num_matrices).foldl
            (init_border_pass arguments.N arguments.h)
            ((List.range o.number).foldl
              (fun Matrix t => initMatrices_t arguments.N o.number o.method t Matrix)
              arguments.M)
        else
          (List.range o.number).foldl
            (fun Matrix t => initMatrices_t arguments.N o.number o.method t Matrix)
            arguments.M := rfl

/-- For the interference function `FUNC_F0`, `initMatrices` leaves `border_value` in every
border cell of every matrix. -/
theorem initMatrices_border_cells (arguments : calculation_arguments α) (o : options α)
    (hN : 1 ≤ arguments.N) (hf : o.inf_func = FUNC_F0) (g r c : Nat)
    (hg : g < arguments.num_matrices) (hr : r ≤ arguments.N) (hc : c ≤ arguments.N)
    (hb : r = 0 ∨ r = arguments.N ∨ c = 0 ∨ c = arguments.N) :
    (initMatrices arguments o).M g r c = border_value arguments.N arguments.h r c := by
  rw [initMatrices_M, if_pos hf]
  rw [foldl_range_last (init_border_pass arguments.N arguments.h) g r c g
    arguments.num_matrices _ hg
    (fun k M' h1 _ => init_border_pass_other arguments.N arguments.h k M' g r c (by omega))]
  exact init_border_pass_value arguments.N hN arguments.h g _ r c hr hc hb

theorem initMatrices_t_apply (N T method t : Nat) (M : matrix α) (g i j : Nat) :
    initMatrices_t N T method t M g i j
      = if init_lower (init_size N method) T t ≤ flat_index N g i j
          ∧ flat_index N g i j < init_upper (init_size N method) T t then 0
        else M g i j := rfl

theorem init_upper_eq_lower_succ (size T t : Nat) :
    init_upper size T t = init_lower size T (t + 1) := by
  simp only [init_upper, init_lower, Nat.add_mul, Nat.one_mul]
  split_ifs <;> omega

theorem init_lower_zero (size T : Nat) : init_lower size T 0 = 0 := by
  simp [init_lower]

theorem init_lower_full (size T : Nat) (hT : 1 ≤ T) : init_lower size T T = size := by
  simp only [init_lower]
  rw [if_neg (Nat.not_lt.mpr (Nat.mod_lt _ hT).le), Nat.div_add_mod]

/-- Every element of the buffer lies in the part of some thread. -/
theorem init_exists_range (size T p k : Nat) (h : p < init_lower size T k) :
    ∃ t, t < k ∧ init_lower size T t ≤ p ∧ p < init_upper size T t := by
  induction k with
  | zero => rw [init_lower_zero] at h; omega
  | succ n ih =>
    rcases Nat.lt_or_ge p (init_lower size T n) with h' | h'
    · obtain ⟨t, ht, hl⟩ := ih h'
      exact ⟨t, by omega, hl⟩
    · exact ⟨n, by omega, h', by rw [init_upper_eq_lower_succ]; exact h⟩

/-- The cells of the two matrices lie inside the zeroed buffer. -/
theorem flat_index_lt (N g i j : Nat) (hg : g < 2) (hi : i ≤ N) (hj : j ≤ N) :
    flat_index N g i j < init_size N METH_JACOBI := by
  simp only [flat_index, init_size, if_true]
  have h1 : g * ((N + 1) * (N + 1)) ≤ 1 * ((N + 1) * (N + 1)) :=
    Nat.mul_le_mul_right _ (by omega)
  have h2 : i * (N + 1) ≤ N * (N + 1) := Nat.mul_le_mul_right _ hi
  have h3 : (N + 1) * (N + 1) = N * (N + 1) + (N + 1) := by ring
  omega

/-- A cell that is zero, or that lies in the part of one of the threads of `ts`, is zero after
these threads have run. -/
theorem zero_fill_fold (N T method : Nat) (g i j : Nat) (ts : List Nat) :
    ∀ M : matrix α,
      (M g i j = 0 ∨ ∃ t, t ∈ ts ∧ init_lower (init_size N method) T t ≤ flat_index N g i j
        ∧ flat_index N g i j < init_upper (init_size N method) T t) →
      ts.foldl (fun Matrix t => initMatrices_t N T method t Matrix) M g i j = 0 := by
  induction ts with
  | nil =>
    intro M h
    rcases h with h | ⟨t, ht, -⟩
    · exact h
    · cases ht
  | cons t ts ih =>
    intro M h
    rw [List.foldl_cons]
    apply ih
    by_cases hc : init_lower (init_size N method) T t ≤ flat_index N g i j
        ∧ flat_index N g i j < init_upper (init_size N method) T t
    · left
      rw [initMatrices_t_apply, if_pos hc]
    · rcases h with h | ⟨t', ht', hcov⟩
      · left
        rw [initMatrices_t_apply, if_neg hc]
        exact h
      · rcases List.mem_cons.mp ht' with e | e
        · exact absurd (e ▸ hcov) hc
        · exact Or.inr ⟨t', e, hcov⟩

/-- The threads of `initMatrices_t` zero every cell of the two matrices. -/
theorem zero_fill (N T : Nat) (hT : 1 ≤ T) (M : matrix α) (g i j : Nat) (hg : g < 2)
    (hi : i ≤ N) (hj : j ≤ N) :
    (List.range T).foldl (fun Matrix t => initMatrices_t N T METH_JACOBI t Matrix) M g i j
      = 0 := by
  apply zero_fill_fold
  right
  have hlt := flat_index_lt N g i j hg hi hj
  rw [← init_lower_full (init_size N METH_JACOBI) T hT] at hlt
  obtain ⟨t, ht, hl⟩ := init_exists_range _ T _ T hlt
  exact ⟨t, List.mem_range.mpr ht, hl⟩

/-- For an interference function other than `FUNC_F0`, `initMatrices` leaves zero in every
cell of the two matrices. -/
theorem initMatrices_zero (arguments : calculation_arguments α) (o : options α)
    (hmethod : o.method = METH_JACOBI) (hT : 1 ≤ o.number) (hf : o.inf_func ≠ FUNC_F0)
    (g i j : Nat) (hg : g < 2) (hi : i ≤ arguments.N) (hj : j ≤ arguments.N) :
    (initMatrices arguments o).M g i j = 0 := by
  rw [initMatrices_M, if_neg hf, hmethod]
  exact zero_fill arguments.N o.number hT arguments.M g i j hg hi hj

/-- The two matrices that `initMatrices` leaves agree on the border. -/
theorem initMatrices_same_border (arguments : calculation_arguments α) (o : options α)
    (hmethod : o.method = METH_JACOBI) (hT : 1 ≤ o.number) (hN : 1 ≤ arguments.N)
    (hnum : arguments.num_matrices = 2) :
    same_border arguments.N (initMatrices arguments o).M := by
  intro i j hi hj hb
  by_cases hf : o.inf_func = FUNC_F0
  · rw [initMatrices_border_cells arguments o hN hf 0 i j (by omega) hi hj hb,
      initMatrices_border_cells arguments o hN hf 1 i j (by omega) hi hj hb]
  · rw [initMatrices_zero arguments o hmethod hT hf 0 i j (by omega) hi hj,
      initMatrices_zero arguments o hmethod hT hf 1 i j (by omega) hi hj]

/-- On the border, the values that `initMatrices` writes for the spacing `h = 1 / N` are the
values of the bilinear grid. -/
theorem border_value_eq_bilinear (N : Nat) (hN : 1 ≤ N) (r c : Nat)
    (hb : r = 0 ∨ r = N ∨ c = 0 ∨ c = N) :
    border_value N (1 / (N : α)) r c = bilinear N r c := by
  have hN0 : (N : α) ≠ 0 := Nat.cast_ne_zero.mpr (by omega)
  simp only [border_value, bilinear]
  split_ifs with h1 h2 h3 h4
  · rcases h1 with ⟨e1, e2⟩ | ⟨e1, e2⟩
    · subst e1; subst e2
      simp only [Nat.cast_zero]
      field_simp
    · subst e1; subst e2
      simp only [Nat.cast_zero]
      field_simp
  · subst h2
    simp only [Nat.cast_zero]
    ring
  · subst h3
    field_simp
    ring
  · subst h4
    simp only [Nat.cast_zero]
    ring
  · have hc : c = N := by omega
    subst hc
    field_simp
    ring

theorem bilinear_corners (N : Nat) (hN : 1 ≤ N) :
    (bilinear N 0 0 : α) = 1 ∧ (bilinear N 0 N : α) = 0 ∧ (bilinear N N 0 : α) = 0
    ∧ (bilinear N N N : α) = 1 := by
  have hN0 : (N : α) ≠ 0 := Nat.cast_ne_zero.mpr (by omega)
  simp only [bilinear, Nat.cast_zero]
  refine ⟨by ring, by field_simp, by field_simp, ?_⟩
  field_simp
  ring

/-- The stencil maps the bilinear grid to itself: a quarter of the sum of the four neighbours
of an interior cell is the value of the cell. -/
theorem bilinear_stencil (N i j : Nat) (hi : 1 ≤ i) (hj : 1 ≤ j) :
    (1 / 4) * ((bilinear N (i - 1) j : α) + bilinear N i (j - 1) + bilinear N i (j + 1)
      + bilinear N (i + 1) j) = bilinear N i j := by
  simp only [bilinear, Nat.cast_sub hi, Nat.cast_sub hj, Nat.cast_add, Nat.cast_one]
  ring

/-- Without interference term, the stencil value of an interior cell of a slot that holds the
bilinear grid is the value of the bilinear grid. -/
theorem reference_star_bilinear (sin : α → α) (a : shared_args α)
    (hf : a.options.inf_func ≠ FUNC_FPISIN) (M : matrix α) (rd : Nat)
    (hM : ∀ i j, i ≤ a.N → j ≤ a.N → M rd i j = bilinear a.N i j) (i j : Nat)
    (hi : 1 ≤ i ∧ i < a.N) (hj : 1 ≤ j ∧ j < a.N) :
    reference_star sin a M rd i j = bilinear a.N i j := by
  simp only [reference_star, reference_source, hf, if_false, add_zero]
  rw [hM (i - 1) j (by omega) (by omega), hM i (j - 1) (by omega) (by omega),
    hM i (j + 1) (by omega) (by omega), hM (i + 1) j (by omega) (by omega)]
  exact bilinear_stencil a.N i j hi.1 hj.1

/-- Without interference term, a sweep that reads the bilinear grid has residual zero. -/
theorem reference_residual_bilinear (sin : α → α) (a : shared_args α)
    (hf : a.options.inf_func ≠ FUNC_FPISIN) (M : matrix α) (rd : Nat)
    (hM : ∀ i j, i ≤ a.N → j ≤ a.N → M rd i j = bilinear a.N i j) :
    reference_residual sin a M rd = 0 := by
  obtain ⟨hmem, -, -⟩ := reference_residual_spec sin a M rd
  rcases hmem with h | ⟨i, j, ⟨hi, hj⟩, h⟩
  · exact h
  · rw [h]
    beta_reduce
    rw [reference_star_bilinear sin a hf M rd hM i j hi hj,
      hM i j (by omega) (by omega), sub_self, abs_zero]

end init_lemmas

/-! ## The solver against the reference solver -/

section claims

variable {α : Type} [LinearOrderedField α]

/-- Claim C3: thread-count invariance.  With each barrier-delimited round modelled as one step
of all `T` threads, `calculate` with `T` threads (`1 ≤ T ≤ N - 1`, method Jacobi) returns, for
every interference function, termination discipline and amount of fuel, exactly what the
single-threaded reference solver returns: the same matrix, the slot of the newest iterate, the
same round count (as a `uint64_t`) and the same final residual; both run out of fuel together.
Hence the result does not depend on `T` (`T = 1` and `T = 4` agree), and under the count
discipline a result is returned as soon as the fuel covers the requested rounds. -/
theorem C3_thread_count_invariance (sin : α → α) (M_PI : α) (shared0 : Nat → α) (fuel : Nat)
    (arguments : calculation_arguments α) (results : calculation_results α) (o : options α)
    (T : Nat) (hmethod : o.method = METH_JACOBI) (hT : 1 ≤ T) (hTN : T ≤ arguments.N - 1) :
    calculate residuum_rule.as_written sin M_PI shared0 fuel arguments results
        { o with number := T }
      = (reference_solve sin M_PI fuel arguments o).map
          (fun r => (r.1, { m := r.2.1, stat_iteration := r.2.2.1 % UINT64_SIZE,
                            stat_precision := r.2.2.2 }))
    ∧ calculate residuum_rule.as_written sin M_PI shared0 fuel arguments results
        { o with number := T }
      = calculate residuum_rule.as_written sin M_PI shared0 fuel arguments results
        { o with number := 1 }
    ∧ (o.termination = TERM_ITER → o.term_iteration ≤ fuel →
        ∃ r, calculate residuum_rule.as_written sin M_PI shared0 fuel arguments results
          { o with number := T } = some r) := by
  have hN : 1 ≤ arguments.N := by omega
  have key := fun T' hT' => calculate_eq_reference residuum_rule.as_written sin M_PI shared0
    fuel arguments results o T' hmethod hN hT'
  refine ⟨key T hT, ?_, ?_⟩
  · rw [key T hT, key 1 (le_refl 1)]
  · intro hterm hfuel
    have h := (calculate_loop_count residuum_rule.as_written sin M_PI shared0 arguments
      { o with number := T } hmethod hN hT hterm).1 fuel hfuel
    simp only [calculate]
    rw [h]
    exact ⟨_, rfl⟩

theorem C3_thread_count_invariance_witness :
    (scenario_options 4).method = METH_JACOBI ∧ 1 ≤ 4 ∧ 4 ≤ (scenario_arguments 4).N - 1
    ∧ (calculate residuum_rule.as_written (fun _ => (0 : ℚ)) 3 (fun _ => 0) 10
          (scenario_arguments 4) { m := 0, stat_iteration := 0, stat_precision := 0 }
          { scenario_options 4 with number := 4 }
        = (reference_solve (fun _ => (0 : ℚ)) 3 10 (scenario_arguments 4)
            (scenario_options 4)).map
            (fun r => (r.1, { m := r.2.1, stat_iteration := r.2.2.1 % UINT64_SIZE,
                              stat_precision := r.2.2.2 }))
      ∧ calculate residuum_rule.as_written (fun _ => (0 : ℚ)) 3 (fun _ => 0) 10
          (scenario_arguments 4) { m := 0, stat_iteration := 0, stat_precision := 0 }
          { scenario_options 4 with number := 4 }
        = calculate residuum_rule.as_written (fun _ => (0 : ℚ)) 3 (fun _ => 0) 10
          (scenario_arguments 4) { m := 0, stat_iteration := 0, stat_precision := 0 }
          { scenario_options 4 with number := 1 }
      ∧ ((scenario_options 4).termination = TERM_ITER → (scenario_options 4).term_iteration ≤ 10 →
          ∃ r, calculate residuum_rule.as_written (fun _ => (0 : ℚ)) 3 (fun _ => 0) 10
            (scenario_arguments 4) { m := 0, stat_iteration := 0, stat_precision := 0 }
            { scenario_options 4 with number := 4 } = some r)) :=
  ⟨rfl, by decide, by decide,
    C3_thread_count_invariance (fun _ => (0 : ℚ)) 3 (fun _ => 0) 10 (scenario_arguments 4)
      { m := 0, stat_iteration := 0, stat_precision := 0 } (scenario_options 4) 4 rfl
      (by decide) (by decide)⟩

/-- Claim C4: the frame of one relaxation round.  One loop iteration of thread `t < T` of
`calculate_t` (any `T ≥ 1`, two different slots `m1 ≠ m2`) changes at most the cells
`Matrix[m1][i][j]` with `1 ≤ i ≤ N - 1`, `1 ≤ j ≤ N - 1` and `i` in the row range of the
thread; every border cell of every slot and every cell of the read slot `m2` keeps its value. -/
theorem C4_round_frame (sin : α → α) (a : shared_args α) (t : Nat) (w : world α)
    (hN : 1 ≤ a.N) (hT : 1 ≤ a.options.number) (ht : t < a.options.number)
    (hslots : (w.thread t).m1 ≠ (w.thread t).m2) :
    (∀ s i j, (thread_round residuum_rule.as_written sin a t w).Matrix s i j ≠ w.Matrix s i j →
        s = (w.thread t).m1 ∧ (1 ≤ i ∧ i ≤ a.N - 1) ∧ (1 ≤ j ∧ j ≤ a.N - 1)
        ∧ (lower a.N a.options.number t ≤ i ∧ i < upper a.N a.options.number t))
    ∧ (∀ s i j, (i = 0 ∨ i = a.N ∨ j = 0 ∨ j = a.N) →
        (thread_round residuum_rule.as_written sin a t w).Matrix s i j = w.Matrix s i j)
    ∧ (∀ i j, (thread_round residuum_rule.as_written sin a t w).Matrix (w.thread t).m2 i j
        = w.Matrix (w.thread t).m2 i j) := by
  have hfst : ∀ s i j,
      (thread_round residuum_rule.as_written sin a t w).Matrix s i j ≠ w.Matrix s i j →
        s = (w.thread t).m1 ∧ (1 ≤ i ∧ i ≤ a.N - 1) ∧ (1 ≤ j ∧ j ≤ a.N - 1)
        ∧ (lower a.N a.options.number t ≤ i ∧ i < upper a.N a.options.number t) := by
    intro s i j hne
    simp only [thread_round, after_barrier_eq] at hne
    rcases Nat.eq_zero_or_pos (w.thread t).term_iteration with h0 | hrun
    · rw [before_barrier_stopped _ sin a t w h0] at hne
      exact absurd rfl hne
    · rw [before_barrier_running _ sin a t w hrun] at hne
      simp only [sweep_matrix _ sin a _ _ _ _ _ hslots] at hne
      by_cases hc : s = (w.thread t).m1
          ∧ (lower a.N a.options.number t ≤ i ∧ i < upper a.N a.options.number t)
          ∧ (1 ≤ j ∧ j < a.N)
      · obtain ⟨hs, hi, hj⟩ := hc
        have := (mem_range_iff a.N a.options.number hT i).mp ⟨t, ht, hi⟩
        exact ⟨hs, this, ⟨hj.1, by omega⟩, hi⟩
      · rw [if_neg hc] at hne
        exact absurd rfl hne
  refine ⟨hfst, ?_, ?_⟩
  · intro s i j hb
    by_contra hne
    obtain ⟨-, hi, hj, -⟩ := hfst s i j hne
    omega
  · intro i j
    by_contra hne
    exact hslots (hfst _ i j hne).1.symm

theorem C4_round_frame_witness :
    1 ≤ (calculate_args (3 : ℚ) (scenario_arguments 4) (scenario_options 4)).N
    ∧ 1 ≤ (calculate_args (3 : ℚ) (scenario_arguments 4) (scenario_options 4)).options.number
    ∧ 2 < (calculate_args (3 : ℚ) (scenario_arguments 4) (scenario_options 4)).options.number
    ∧ ((calculate_world (fun _ => (0 : ℚ)) (scenario_arguments 4)
        (scenario_options 4)).thread 2).m1
      ≠ ((calculate_world (fun _ => (0 : ℚ)) (scenario_arguments 4)
        (scenario_options 4)).thread 2).m2
    ∧ ∀ i j, (thread_round residuum_rule.as_written (fun _ => (0 : ℚ))
          (calculate_args (3 : ℚ) (scenario_arguments 4) (scenario_options 4)) 2
          (calculate_world (fun _ => (0 : ℚ)) (scenario_arguments 4)
            (scenario_options 4))).Matrix
          ((calculate_world (fun _ => (0 : ℚ)) (scenario_arguments 4)
            (scenario_options 4)).thread 2).m2 i j
        = (calculate_world (fun _ => (0 : ℚ)) (scenario_arguments 4)
            (scenario_options 4)).Matrix
          ((calculate_world (fun _ => (0 : ℚ)) (scenario_arguments 4)
            (scenario_options 4)).thread 2).m2 i j :=
  ⟨by decide, by decide, by decide, by decide,
    (C4_round_frame (fun _ => (0 : ℚ))
      (calculate_args (3 : ℚ) (scenario_arguments 4) (scenario_options 4)) 2
      (calculate_world (fun _ => (0 : ℚ)) (scenario_arguments 4) (scenario_options 4))
      (by decide) (by decide) (by decide) (by decide)).2.2⟩

/-- Claim C5: the count discipline.  Under `TERM_ITER` with a requested count
`1 ≤ c ≤ 200000` (method Jacobi, `T ≥ 1` threads), every thread has `c - j` remaining rounds
and round counter `j` after `j ≤ c` rounds, so the counter goes down by one per round and
reaches zero after exactly `c` rounds; `calculate` returns as soon as the fuel covers `c`
rounds, not before, and the recorded `stat_iteration` is `c`. -/
theorem C5_count_discipline (sin : α → α) (M_PI : α) (shared0 : Nat → α)
    (arguments : calculation_arguments α) (results : calculation_results α) (o : options α)
    (c : Nat) (hmethod : o.method = METH_JACOBI) (hN : 1 ≤ arguments.N) (hT : 1 ≤ o.number)
    (hterm : o.termination = TERM_ITER) (hc : o.term_iteration = c) (hc1 : 1 ≤ c)
    (hc2 : c ≤ MAX_ITERATION) :
    (∀ j t, j ≤ c → t < o.number →
      ((rounds residuum_rule.as_written sin (calculate_args M_PI arguments o) j
        (calculate_world shared0 arguments o)).thread t).term_iteration = c - j
      ∧ ((rounds residuum_rule.as_written sin (calculate_args M_PI arguments o) j
        (calculate_world shared0 arguments o)).thread t).stat_iteration = j)
    ∧ (∀ fuel, c ≤ fuel →
      ∃ r, calculate residuum_rule.as_written sin M_PI shared0 fuel arguments results o = some r
        ∧ r.2.stat_iteration = c)
    ∧ (∀ fuel, fuel < c →
      calculate residuum_rule.as_written sin M_PI shared0 fuel arguments results o = none) := by
  obtain ⟨s1, s2, s3⟩ := calculate_t_init_slots o hmethod
  have hti : (calculate_t_init o).term_iteration = c := hc
  have hcount := lockstep_count residuum_rule.as_written sin (calculate_args M_PI arguments o)
    arguments.M (calculate_t_init o) s1 s2 s3 hterm
  have hsmall : ∀ j, j ≤ c → j % UINT64_SIZE = j := by
    intro j hj
    apply Nat.mod_eq_of_lt
    have : c ≤ 200000 := hc2
    rw [UINT64_SIZE]; omega
  have hloc : ∀ j t, j ≤ c → t < o.number →
      ((rounds residuum_rule.as_written sin (calculate_args M_PI arguments o) j
        (calculate_world shared0 arguments o)).thread t).term_iteration = c - j
      ∧ ((rounds residuum_rule.as_written sin (calculate_args M_PI arguments o) j
        (calculate_world shared0 arguments o)).thread t).stat_iteration = j := by
    intro j t hj ht
    rw [(calculate_rounds residuum_rule.as_written sin M_PI shared0 arguments o hmethod hN hT
      j).2 t ht]
    refine ⟨by rw [hcount j (by rw [hti]; exact hj), hti], ?_⟩
    have hrun : ∀ i, i < j → 0 < (lockstep residuum_rule.as_written sin
        (calculate_args M_PI arguments o) arguments.M (calculate_t_init o) i).2.term_iteration := by
      intro i hi
      rw [hcount i (by rw [hti]; omega), hti]
      omega
    rw [(lockstep_running residuum_rule.as_written sin (calculate_args M_PI arguments o)
      arguments.M (calculate_t_init o) s1 s2 s3 j hrun).2.2.2, hsmall j hj]
  obtain ⟨hsome, hnone⟩ := calculate_loop_count residuum_rule.as_written sin M_PI shared0
    arguments o hmethod hN hT hterm
  refine ⟨hloc, ?_, ?_⟩
  · intro fuel hf
    simp only [calculate]
    rw [hsome fuel (by rw [hc]; exact hf)]
    refine ⟨_, rfl, ?_⟩
    simp only
    rw [epilogue_fold _ o.number hT results, hc]
    exact (hloc c 0 (le_refl c) hT).2
  · intro fuel hf
    simp only [calculate]
    rw [hnone fuel (by rw [hc]; exact hf)]
    rfl

theorem C5_count_discipline_witness :
    (scenario_options 4).method = METH_JACOBI ∧ 1 ≤ (scenario_arguments 4).N
    ∧ 1 ≤ (scenario_options 4).number ∧ (scenario_options 4).termination = TERM_ITER
    ∧ (scenario_options 4).term_iteration = 10 ∧ 1 ≤ 10 ∧ 10 ≤ MAX_ITERATION
    ∧ ∀ fuel, 10 ≤ fuel →
      ∃ r, calculate residuum_rule.as_written (fun _ => (0 : ℚ)) 3 (fun _ => 0) fuel
          (scenario_arguments 4) { m := 0, stat_iteration := 0, stat_precision := 0 }
          (scenario_options 4) = some r
        ∧ r.2.stat_iteration = 10 :=
  ⟨rfl, by decide, by decide, rfl, rfl, by decide, by decide,
    (C5_count_discipline (fun _ => (0 : ℚ)) 3 (fun _ => 0) (scenario_arguments 4)
      { m := 0, stat_iteration := 0, stat_precision := 0 } (scenario_options 4) 10 rfl
      (by decide) (by decide) rfl rfl (by decide) (by decide)).2.1⟩

/-- Claim C6: the precision discipline.  Under `TERM_PREC`, `askParams` sets `term_iteration`
to `MAX_ITERATION`.  In a run (method Jacobi, `T ≥ 1` threads, initial `term_iteration > 0`)
the remaining rounds of every thread are never decremented: they are the initial value or, after the stop, zero.
While a thread is running, the residuum it holds after round `k` is the global maximum
residual of round `k`.  A thread stops after round `k` (running after round `k - 1`, stopped
after round `k`) exactly when round `k` is the first round whose global maximum residual is
strictly below `term_precision`.  For every `k`, also beyond `MAX_ITERATION`, if the global
residual of each of the rounds `1, ..., k` is at least `term_precision`, every thread is
still running after round `k` and `calculate` has not returned within `k` rounds. -/
theorem C6_precision_discipline (sin : α → α) (M_PI : α) (shared0 : Nat → α)
    (arguments : calculation_arguments α) (results : calculation_results α) (o : options α)
    (hmethod : o.method = METH_JACOBI) (hN : 1 ≤ arguments.N) (hT : 1 ≤ o.number)
    (hterm : o.termination = TERM_PREC) (hpos : 0 < o.term_iteration) :
    (∀ (number method interlines inf_func arg_iter : Nat) (arg_prec : α) (o' : options α),
      askParams number method interlines inf_func TERM_PREC arg_prec arg_iter = some o' →
      o'.term_iteration = MAX_ITERATION)
    ∧ (∀ k t, t < o.number →
      ((rounds residuum_rule.as_written sin (calculate_args M_PI arguments o) k
        (calculate_world shared0 arguments o)).thread t).term_iteration = o.term_iteration
      ∨ ((rounds residuum_rule.as_written sin (calculate_args M_PI arguments o) k
        (calculate_world shared0 arguments o)).thread t).term_iteration = 0)
    ∧ (∀ k t, 1 ≤ k → t < o.number →
      0 < ((rounds residuum_rule.as_written sin (calculate_args M_PI arguments o) (k - 1)
        (calculate_world shared0 arguments o)).thread t).term_iteration →
      ((rounds residuum_rule.as_written sin (calculate_args M_PI arguments o) k
        (calculate_world shared0 arguments o)).thread t).maxresiduum
        = round_residual sin (calculate_args M_PI arguments o) arguments.M k)
    ∧ (∀ k t, 1 ≤ k → t < o.number →
      ((0 < ((rounds residuum_rule.as_written sin (calculate_args M_PI arguments o) (k - 1)
          (calculate_world shared0 arguments o)).thread t).term_iteration
        ∧ ((rounds residuum_rule.as_written sin (calculate_args M_PI arguments o) k
          (calculate_world shared0 arguments o)).thread t).term_iteration = 0)
      ↔ (round_residual sin (calculate_args M_PI arguments o) arguments.M k < o.term_precision
        ∧ ∀ j, 1 ≤ j → j < k →
          o.term_precision ≤ round_residual sin (calculate_args M_PI arguments o) arguments.M j)))
    ∧ (∀ k, (∀ j, 1 ≤ j → j ≤ k →
          o.term_precision ≤ round_residual sin (calculate_args M_PI arguments o) arguments.M j) →
      (∀ t, t < o.number →
        ((rounds residuum_rule.as_written sin (calculate_args M_PI arguments o) k
          (calculate_world shared0 arguments o)).thread t).term_iteration = o.term_iteration)
      ∧ calculate residuum_rule.as_written sin M_PI shared0 k arguments results o = none) := by
  obtain ⟨s1, s2, s3⟩ := calculate_t_init_slots o hmethod
  have hlp := lockstep_prec residuum_rule.as_written sin (calculate_args M_PI arguments o)
    arguments.M (calculate_t_init o) s1 s2 s3 hterm hpos
  have hth := fun k => (calculate_rounds residuum_rule.as_written sin M_PI shared0 arguments o
    hmethod hN hT k).2
  have hti : (calculate_t_init o).term_iteration = o.term_iteration := rfl
  have hprec : (calculate_args M_PI arguments o).options.term_precision = o.term_precision := rfl
  rw [hti, hprec] at hlp
  refine ⟨fun n m i f it p o' h => (askParams_prec n m i f p it o' h).2.1, ?_, ?_, ?_, ?_⟩
  · intro k t ht
    rw [hth k t ht]
    by_cases hex : ∃ j, 1 ≤ j ∧ j ≤ k
        ∧ round_residual sin (calculate_args M_PI arguments o) arguments.M j < o.term_precision
    · exact Or.inr ((hlp k).2 hex)
    · refine Or.inl ((hlp k).1 (fun j hj1 hj2 => ?_))
      by_contra hc
      exact hex ⟨j, hj1, hj2, not_le.mp hc⟩
  · intro k t hk ht hrun
    obtain ⟨n, rfl⟩ : ∃ n, k = n + 1 := ⟨k - 1, by omega⟩
    rw [Nat.add_sub_cancel, hth n t ht] at hrun
    rw [hth (n + 1) t ht, (lockstep_step residuum_rule.as_written sin _ _ _ s1 s2 s3 n hrun).1]
    simp [computes_residuum, calculate_args, hterm]
  · intro k t hk ht
    obtain ⟨n, rfl⟩ : ∃ n, k = n + 1 := ⟨k - 1, by omega⟩
    rw [Nat.add_sub_cancel, hth n t ht, hth (n + 1) t ht]
    constructor
    · rintro ⟨hrun, hstop⟩
      have hbefore : ∀ j, 1 ≤ j → j ≤ n →
          o.term_precision ≤ round_residual sin (calculate_args M_PI arguments o) arguments.M j := by
        intro j hj1 hj2
        by_contra hc
        have := (hlp n).2 ⟨j, hj1, hj2, not_le.mp hc⟩
        omega
      refine ⟨?_, fun j hj1 hj2 => hbefore j hj1 (by omega)⟩
      by_contra hc
      have := (hlp (n + 1)).1 (fun j hj1 hj2 => by
        rcases Nat.lt_or_ge j (n + 1) with h | h
        · exact hbefore j hj1 (by omega)
        · have : j = n + 1 := by omega
          rw [this]; exact not_lt.mp hc)
      omega
    · rintro ⟨hlt, hbefore⟩
      refine ⟨?_, (hlp (n + 1)).2 ⟨n + 1, by omega, le_refl _, hlt⟩⟩
      rw [(hlp n).1 (fun j hj1 hj2 => hbefore j hj1 (by omega))]
      exact hpos
  · intro k hall
    have hrunning : ∀ i, i ≤ k → (lockstep residuum_rule.as_written sin
        (calculate_args M_PI arguments o) arguments.M (calculate_t_init o) i).2.term_iteration
        = o.term_iteration :=
      fun i hi => (hlp i).1 (fun j hj1 hj2 => hall j hj1 (by omega))
    refine ⟨fun t ht => by rw [hth k t ht]; exact hrunning k (le_refl k), ?_⟩
    simp only [calculate]
    rw [calculate_loop_none residuum_rule.as_written sin _ k]
    · rfl
    · intro i hi
      cases hs : all_stopped (calculate_args M_PI arguments o)
        (rounds residuum_rule.as_written sin (calculate_args M_PI arguments o) i
          (calculate_world shared0 arguments o))
      · rfl
      · have h0 := (calculate_all_stopped residuum_rule.as_written sin M_PI shared0 arguments o
          hmethod hN hT i).mp hs
        rw [hrunning i hi] at h0
        omega

theorem C6_precision_discipline_witness :
    (scenario_options_prec 4).method = METH_JACOBI ∧ 1 ≤ (scenario_arguments 4).N
    ∧ 1 ≤ (scenario_options_prec 4).number ∧ (scenario_options_prec 4).termination = TERM_PREC
    ∧ 0 < (scenario_options_prec 4).term_iteration
    ∧ ∀ k t, t < (scenario_options_prec 4).number →
      ((rounds residuum_rule.as_written (fun _ => (0 : ℚ))
        (calculate_args 3 (scenario_arguments 4) (scenario_options_prec 4)) k
        (calculate_world (fun _ => 0) (scenario_arguments 4)
          (scenario_options_prec 4))).thread t).term_iteration
        = (scenario_options_prec 4).term_iteration
      ∨ ((rounds residuum_rule.as_written (fun _ => (0 : ℚ))
        (calculate_args 3 (scenario_arguments 4) (scenario_options_prec 4)) k
        (calculate_world (fun _ => 0) (scenario_arguments 4)
          (scenario_options_prec 4))).thread t).term_iteration = 0 :=
  ⟨rfl, by decide, by decide, rfl, by decide,
    (C6_precision_discipline (fun _ => (0 : ℚ)) 3 (fun _ => 0) (scenario_arguments 4)
      { m := 0, stat_iteration := 0, stat_precision := 0 } (scenario_options_prec 4) rfl
      (by decide) (by decide) rfl (by decide)).2.1⟩

/-- Claim C8: the result slot.  When the loops of `calculate_t` exit after `k ≥ 1` rounds
(some thread still running after round `k - 1`, all stopped after round `k`; method Jacobi, so
the initial roles are `m1 = 0`, `m2 = 1`), `calculate` returns as soon as the fuel covers `k`
rounds, and thread 0 has stored: in `results->m` the slot that was written in round `k`, which
is `0` for odd `k` and `1` for even `k`; in `results->stat_iteration` the value `k` (as a
`uint64_t`, so `k` itself below `2 ^ 64`); in `results->stat_precision` the global maximum
residual of round `k`.  The matrix is then the `k`-th Jacobi iterate. -/
theorem C8_result_slot (sin : α → α) (M_PI : α) (shared0 : Nat → α)
    (arguments : calculation_arguments α) (results : calculation_results α) (o : options α)
    (k : Nat) (hmethod : o.method = METH_JACOBI) (hN : 1 ≤ arguments.N) (hT : 1 ≤ o.number)
    (hk : 1 ≤ k)
    (hrun : all_stopped (calculate_args M_PI arguments o)
      (rounds residuum_rule.as_written sin (calculate_args M_PI arguments o) (k - 1)
        (calculate_world shared0 arguments o)) = false)
    (hstop : all_stopped (calculate_args M_PI arguments o)
      (rounds residuum_rule.as_written sin (calculate_args M_PI arguments o) k
        (calculate_world shared0 arguments o)) = true) :
    ∀ fuel, k ≤ fuel →
      ∃ r, calculate residuum_rule.as_written sin M_PI shared0 fuel arguments results o = some r
        ∧ r.2.m = ((rounds residuum_rule.as_written sin (calculate_args M_PI arguments o)
            (k - 1) (calculate_world shared0 arguments o)).thread 0).m1
        ∧ r.2.m = (if k % 2 = 1 then 0 else 1)
        ∧ r.2.stat_iteration = k % UINT64_SIZE
        ∧ (k < UINT64_SIZE → r.2.stat_iteration = k)
        ∧ r.2.stat_precision
          = round_residual sin (calculate_args M_PI arguments o) arguments.M k
        ∧ r.1 = jacobi sin (calculate_args M_PI arguments o) arguments.M k := by
  obtain ⟨n, rfl⟩ : ∃ n, k = n + 1 := ⟨k - 1, by omega⟩
  rw [Nat.add_sub_cancel] at hrun ⊢
  obtain ⟨hsome, -, hm1⟩ := calculate_exit residuum_rule.as_written sin M_PI shared0 arguments
    results o hmethod hN hT n hrun hstop
  intro fuel hf
  refine ⟨_, hsome fuel hf, hm1.symm, ?_, rfl, fun h => Nat.mod_eq_of_lt h, rfl, rfl⟩
  simp only
  split_ifs <;> omega

theorem C8_result_slot_witness :
    (scenario_options 4).method = METH_JACOBI ∧ 1 ≤ (scenario_arguments 4).N
    ∧ 1 ≤ (scenario_options 4).number ∧ 1 ≤ 10
    ∧ ∀ fuel, 10 ≤ fuel →
      ∃ r, calculate residuum_rule.as_written (fun _ => (0 : ℚ)) 3 (fun _ => 0) fuel
          (scenario_arguments 4) { m := 0, stat_iteration := 0, stat_precision := 0 }
          (scenario_options 4) = some r
        ∧ r.2.m = ((rounds residuum_rule.as_written (fun _ => (0 : ℚ))
            (calculate_args 3 (scenario_arguments 4) (scenario_options 4))
            (10 - 1) (calculate_world (fun _ => 0) (scenario_arguments 4)
              (scenario_options 4))).thread 0).m1
        ∧ r.2.m = (if 10 % 2 = 1 then 0 else 1)
        ∧ r.2.stat_iteration = 10 % UINT64_SIZE
        ∧ (10 < UINT64_SIZE → r.2.stat_iteration = 10)
        ∧ r.2.stat_precision
          = round_residual (fun _ => (0 : ℚ))
              (calculate_args 3 (scenario_arguments 4) (scenario_options 4))
              (scenario_arguments 4).M 10
        ∧ r.1 = jacobi (fun _ => (0 : ℚ))
              (calculate_args 3 (scenario_arguments 4) (scenario_options 4))
              (scenario_arguments 4).M 10 :=
  ⟨rfl, by decide, by decide, by decide,
    C8_result_slot (fun _ => (0 : ℚ)) 3 (fun _ => 0) (scenario_arguments 4)
      { m := 0, stat_iteration := 0, stat_precision := 0 } (scenario_options 4) 10 rfl
      (by decide) (by decide) (by decide)
      (count_exit residuum_rule.as_written (fun _ => (0 : ℚ)) 3 (fun _ => 0)
        (scenario_arguments 4) (scenario_options 4) rfl (by decide) (by decide) rfl
        (by decide)).1
      (count_exit residuum_rule.as_written (fun _ => (0 : ℚ)) 3 (fun _ => 0)
        (scenario_arguments 4) (scenario_options 4) rfl (by decide) (by decide) rfl
        (by decide)).2⟩

/-- Claim C7: the residual optimisation.  Under the count discipline with a requested count
`c ≥ 1` (method Jacobi, `T ≥ 1` threads), `calculate` as written, which computes and reduces
the residuum only in the round with one remaining round, returns for every amount of fuel
what the variant returns that computes and reduces the residuum in every round: the same
matrix, slot, round count and residual.  Both return once the fuel covers `c` rounds; the
final residual is then the residual of round `c`, which is the maximum of
`|value read - value written|` over the interior cells, read off the final matrix as the
difference between the read slot `c % 2` and the slot `results->m` written in round `c`
(and `0` when there is no interior cell). -/
theorem C7_residual_optimisation (sin : α → α) (M_PI : α) (shared0 : Nat → α)
    (arguments : calculation_arguments α) (results : calculation_results α) (o : options α)
    (c : Nat) (hmethod : o.method = METH_JACOBI) (hN : 1 ≤ arguments.N) (hT : 1 ≤ o.number)
    (hterm : o.termination = TERM_ITER) (hc : o.term_iteration = c) (hc1 : 1 ≤ c) :
    (∀ fuel, calculate residuum_rule.as_written sin M_PI shared0 fuel arguments results o
      = calculate residuum_rule.every_round sin M_PI shared0 fuel arguments results o)
    ∧ (∀ fuel, c ≤ fuel →
      ∃ r, calculate residuum_rule.as_written sin M_PI shared0 fuel arguments results o = some r
        ∧ calculate residuum_rule.every_round sin M_PI shared0 fuel arguments results o = some r
        ∧ r.2.stat_iteration = c % UINT64_SIZE
        ∧ r.2.stat_precision
          = round_residual sin (calculate_args M_PI arguments o) arguments.M c
        ∧ (∀ i j, 1 ≤ i ∧ i < arguments.N → 1 ≤ j ∧ j < arguments.N →
            abs (r.1 (c % 2) i j - r.1 r.2.m i j) ≤ r.2.stat_precision)
        ∧ (2 ≤ arguments.N → ∃ i j, (1 ≤ i ∧ i < arguments.N) ∧ (1 ≤ j ∧ j < arguments.N)
            ∧ r.2.stat_precision = abs (r.1 (c % 2) i j - r.1 r.2.m i j))
        ∧ (arguments.N < 2 → r.2.stat_precision = 0)) := by
  have heta : ({ o with number := o.number } : options α) = o := rfl
  have hboth : ∀ fuel,
      calculate residuum_rule.as_written sin M_PI shared0 fuel arguments results o
      = calculate residuum_rule.every_round sin M_PI shared0 fuel arguments results o := by
    intro fuel
    have e1 := calculate_eq_reference residuum_rule.as_written sin M_PI shared0 fuel arguments
      results o o.number hmethod hN hT
    have e2 := calculate_eq_reference residuum_rule.every_round sin M_PI shared0 fuel arguments
      results o o.number hmethod hN hT
    rw [heta] at e1 e2
    rw [e1, e2]
  refine ⟨hboth, ?_⟩
  intro fuel hf
  obtain ⟨n, rfl⟩ : ∃ n, c = n + 1 := ⟨c - 1, by omega⟩
  obtain ⟨hrun, hstop⟩ := count_exit residuum_rule.as_written sin M_PI shared0 arguments o
    hmethod hN hT hterm (by omega)
  rw [hc, Nat.add_sub_cancel] at hrun
  rw [hc] at hstop
  obtain ⟨hsome, -, -⟩ := calculate_exit residuum_rule.as_written sin M_PI shared0 arguments
    results o hmethod hN hT n hrun hstop
  have hspec := reference_residual_spec sin (calculate_args M_PI arguments o)
    (jacobi sin (calculate_args M_PI arguments o) arguments.M n) ((n + 1) % 2)
  have hdiff := jacobi_succ_difference sin (calculate_args M_PI arguments o) arguments.M n
  have haN : (calculate_args M_PI arguments o).N = arguments.N := rfl
  rw [haN] at hdiff
  simp only [haN] at hspec
  obtain ⟨hmem, hnonneg, hub⟩ := hspec
  refine ⟨_, hsome fuel hf, by rw [← hboth]; exact hsome fuel hf, rfl, rfl, ?_, ?_, ?_⟩
  · intro i j hi hj
    simp only
    rw [hdiff i j hi hj]
    exact hub i j ⟨hi, hj⟩
  · intro h2
    simp only
    rcases hmem with h0 | ⟨i, j, ⟨hi, hj⟩, h⟩
    · have hi : 1 ≤ 1 ∧ 1 < arguments.N := ⟨le_refl 1, by omega⟩
      refine ⟨1, 1, hi, hi, ?_⟩
      rw [hdiff 1 1 hi hi]
      have h1 := hub 1 1 ⟨hi, hi⟩
      simp only [round_residual, Nat.add_sub_cancel] at h0 ⊢
      rw [h0] at h1 ⊢
      exact le_antisymm (abs_nonneg _) h1
    · exact ⟨i, j, hi, hj, by rw [hdiff i j hi hj]; exact h⟩
  · intro hlt
    simp only
    rcases hmem with h0 | ⟨i, j, ⟨hi, -⟩, -⟩
    · exact h0
    · omega

theorem C7_residual_optimisation_witness :
    (scenario_options 4).method = METH_JACOBI ∧ 1 ≤ (scenario_arguments 4).N
    ∧ 1 ≤ (scenario_options 4).number ∧ (scenario_options 4).termination = TERM_ITER
    ∧ (scenario_options 4).term_iteration = 10 ∧ 1 ≤ 10
    ∧ ∀ fuel, calculate residuum_rule.as_written (fun _ => (0 : ℚ)) 3 (fun _ => 0) fuel
        (scenario_arguments 4) { m := 0, stat_iteration := 0, stat_precision := 0 }
        (scenario_options 4)
      = calculate residuum_rule.every_round (fun _ => (0 : ℚ)) 3 (fun _ => 0) fuel
        (scenario_arguments 4) { m := 0, stat_iteration := 0, stat_precision := 0 }
        (scenario_options 4) :=
  ⟨rfl, by decide, by decide, rfl, rfl, by decide,
    (C7_residual_optimisation (fun _ => (0 : ℚ)) 3 (fun _ => 0) (scenario_arguments 4)
      { m := 0, stat_iteration := 0, stat_precision := 0 } (scenario_options 4) 10 rfl
      (by decide) (by decide) rfl rfl (by decide)).1⟩

/-- Claim C9: all workers agree.  (a) For any published array and any two threads
`t, t' < T`, the reduction scan started from the own published value yields the same global
residual, which bounds all `T` published values and is one of them.  (b) In a run of
`calculate` (method Jacobi, `T ≥ 1`), in every round that computes the residuum a running
thread publishes its own local maximum and afterwards holds the result of that scan.
(c) After every round all threads have identical locals: remaining rounds, round count, slot
roles `m1`, `m2` and residuum.  (d) Hence all threads leave the loop in the same round: all
have stopped as soon as one has. -/
theorem C9_workers_agree (sin : α → α) (M_PI : α) (shared0 : Nat → α)
    (arguments : calculation_arguments α) (o : options α)
    (hmethod : o.method = METH_JACOBI) (hN : 1 ≤ arguments.N) (hT : 1 ≤ o.number) :
    (∀ (sh : Nat → α) (t t' : Nat), t < o.number → t' < o.number →
      reduce o.number sh (sh t) = reduce o.number sh (sh t')
      ∧ (∀ j, j < o.number → sh j ≤ reduce o.number sh (sh t))
      ∧ (∃ j, j < o.number ∧ reduce o.number sh (sh t) = sh j))
    ∧ (∀ k t, t < o.number →
      0 < ((rounds residuum_rule.as_written sin (calculate_args M_PI arguments o) k
        (calculate_world shared0 arguments o)).thread t).term_iteration →
      computes_residuum residuum_rule.as_written o
        ((rounds residuum_rule.as_written sin (calculate_args M_PI arguments o) k
          (calculate_world shared0 arguments o)).thread t).term_iteration = true →
      ((List.range o.number).foldl
          (fun w t => before_barrier residuum_rule.as_written sin
            (calculate_args M_PI arguments o) t w)
          (rounds residuum_rule.as_written sin (calculate_args M_PI arguments o) k
            (calculate_world shared0 arguments o))).shared_maxresiduum t
        = (((List.range o.number).foldl
          (fun w t => before_barrier residuum_rule.as_written sin
            (calculate_args M_PI arguments o) t w)
          (rounds residuum_rule.as_written sin (calculate_args M_PI arguments o) k
            (calculate_world shared0 arguments o))).thread t).maxresiduum
      ∧ ((rounds residuum_rule.as_written sin (calculate_args M_PI arguments o) (k + 1)
          (calculate_world shared0 arguments o)).thread t).maxresiduum
        = reduce o.number
            ((List.range o.number).foldl
              (fun w t => before_barrier residuum_rule.as_written sin
                (calculate_args M_PI arguments o) t w)
              (rounds residuum_rule.as_written sin (calculate_args M_PI arguments o) k
                (calculate_world shared0 arguments o))).shared_maxresiduum
            (((List.range o.number).foldl
              (fun w t => before_barrier residuum_rule.as_written sin
                (calculate_args M_PI arguments o) t w)
              (rounds residuum_rule.as_written sin (calculate_args M_PI arguments o) k
                (calculate_world shared0 arguments o))).shared_maxresiduum t))
    ∧ (∀ k t t', t < o.number → t' < o.number →
      (rounds residuum_rule.as_written sin (calculate_args M_PI arguments o) k
        (calculate_world shared0 arguments o)).thread t
      = (rounds residuum_rule.as_written sin (calculate_args M_PI arguments o) k
        (calculate_world shared0 arguments o)).thread t')
    ∧ (∀ k t, t < o.number →
      (all_stopped (calculate_args M_PI arguments o)
        (rounds residuum_rule.as_written sin (calculate_args M_PI arguments o) k
          (calculate_world shared0 arguments o)) = true
      ↔ ((rounds residuum_rule.as_written sin (calculate_args M_PI arguments o) k
          (calculate_world shared0 arguments o)).thread t).term_iteration = 0)) := by
  have hth := fun k => (calculate_rounds residuum_rule.as_written sin M_PI shared0 arguments o
    hmethod hN hT k).2
  obtain ⟨s1, s2, -⟩ := calculate_t_init_slots o hmethod
  have hslots := lockstep_iterate_slots residuum_rule.as_written sin
    (calculate_args M_PI arguments o) (arguments.M, calculate_t_init o)
    (by simp only [s1, s2]; decide)
  have hscan : ∀ (sh : Nat → α) (t : Nat), t < o.number →
      (∀ j, j < o.number → sh j ≤ reduce o.number sh (sh t))
      ∧ (∃ j, j < o.number ∧ reduce o.number sh (sh t) = sh j) := by
    intro sh t ht
    obtain ⟨r1, -, r3⟩ := reduce_spec o.number sh (sh t)
    refine ⟨r3, ?_⟩
    rcases r1 with h | h
    · exact ⟨t, ht, h⟩
    · exact h
  refine ⟨?_, ?_, ?_, ?_⟩
  · intro sh t t' ht ht'
    obtain ⟨b, j, hj, e⟩ := hscan sh t ht
    obtain ⟨b', j', hj', e'⟩ := hscan sh t' ht'
    refine ⟨le_antisymm ?_ ?_, b, j, hj, e⟩
    · rw [e]; exact b' j hj
    · rw [e']; exact b j' hj'
  · intro k t ht hrun hc
    rw [hth k t ht] at hrun hc
    rw [rounds_succ']
    exact round_thread_maxresiduum residuum_rule.as_written sin
      (calculate_args M_PI arguments o) _ _ (hth k) (hslots k) hrun hc t ht
  · intro k t t' ht ht'
    rw [hth k t ht, hth k t' ht']
  · intro k t ht
    rw [calculate_all_stopped residuum_rule.as_written sin M_PI shared0 arguments o hmethod hN
      hT k, hth k t ht]

theorem C9_workers_agree_witness :
    (scenario_options 4).method = METH_JACOBI ∧ 1 ≤ (scenario_arguments 4).N
    ∧ 1 ≤ (scenario_options 4).number
    ∧ ∀ k t t', t < (scenario_options 4).number → t' < (scenario_options 4).number →
      (rounds residuum_rule.as_written (fun _ => (0 : ℚ))
        (calculate_args 3 (scenario_arguments 4) (scenario_options 4)) k
        (calculate_world (fun _ => 0) (scenario_arguments 4) (scenario_options 4))).thread t
      = (rounds residuum_rule.as_written (fun _ => (0 : ℚ))
        (calculate_args 3 (scenario_arguments 4) (scenario_options 4)) k
        (calculate_world (fun _ => 0) (scenario_arguments 4) (scenario_options 4))).thread t' :=
  ⟨rfl, by decide, by decide,
    (C9_workers_agree (fun _ => (0 : ℚ)) 3 (fun _ => 0) (scenario_arguments 4)
      (scenario_options 4) rfl (by decide) (by decide)).2.2.1⟩

/-- Claim C10, as stated, fails: for the command line `partdiff 8 2 0 1 2 10`, which
`askParams` accepts, `N = 8` and the thread count after the clamp of `main` is still `8`,
more than `max 1 (N - 1) = 7`. -/
theorem C10_clamp_counterexample :
    askParams 8 2 0 1 2 (0 : ℚ) 10 = some (scenario_options 8)
    ∧ (initVariables (fun _ _ _ => 0) (scenario_options 8)).1.N = 8
    ∧ (main_clamp (scenario_options 8)
        (initVariables (fun _ _ _ => 0) (scenario_options 8)).1).number = 8
    ∧ ¬ ((main_clamp (scenario_options 8)
        (initVariables (fun _ _ _ => 0) (scenario_options 8)).1).number
      ≤ max 1 ((initVariables (fun _ _ _ => 0) (scenario_options 8)).1.N - 1)) := by
  refine ⟨?_, rfl, rfl, by decide⟩
  simp [askParams, scenario_options, MAX_THREADS, METH_GAUSS_SEIDEL, METH_JACOBI,
    MAX_INTERLINES, FUNC_F0, FUNC_FPISIN, TERM_PREC, TERM_ITER, MAX_ITERATION]

/-- Claim C10, amended: for every interline density in `[0, 10240]` and every requested
thread count in `[1, 1024]`, after `initVariables` and the clamp in `main` the thread count
`T` handed to `initMatrices` and `calculate` satisfies `1 ≤ T ≤ N` with
`N = interlines * 8 + 8 ≤ 81928`: a thread count that exceeds `N` (the number of interior rows
plus one) is replaced by `1`, every other thread count is kept; in particular
`T ≤ max 1 (N - 1) + 1`, and `T` stays within `[1, 1024]`. -/
theorem C10_clamp (M : matrix α) (o : options α) (hi : o.interlines ≤ MAX_INTERLINES)
    (h1 : 1 ≤ o.number) (h2 : o.number ≤ MAX_THREADS) :
    (initVariables M o).1.N = o.interlines * 8 + 8
    ∧ (initVariables M o).1.N ≤ 81928
    ∧ 1 ≤ (main_clamp o (initVariables M o).1).number
    ∧ (main_clamp o (initVariables M o).1).number ≤ MAX_THREADS
    ∧ (main_clamp o (initVariables M o).1).number ≤ (initVariables M o).1.N
    ∧ (main_clamp o (initVariables M o).1).number ≤ max 1 ((initVariables M o).1.N - 1) + 1
    ∧ (o.number > (initVariables M o).1.N → (main_clamp o (initVariables M o).1).number = 1)
    ∧ (o.number ≤ (initVariables M o).1.N →
        (main_clamp o (initVariables M o).1).number = o.number) := by
  have hNval : (initVariables M o).1.N = o.interlines * 8 + 8 := rfl
  have hNle : (initVariables M o).1.N ≤ 81928 := by
    have : o.interlines ≤ 10240 := hi
    rw [hNval]; omega
  have hmax : (initVariables M o).1.N ≤ max 1 ((initVariables M o).1.N - 1) + 1 := by
    have := le_max_right 1 ((initVariables M o).1.N - 1)
    omega
  by_cases h : o.number > (initVariables M o).1.N
  · have e : (main_clamp o (initVariables M o).1).number = 1 := by
      simp only [main_clamp, h, if_true]
    refine ⟨hNval, hNle, by rw [e], by rw [e]; decide, by rw [e, hNval]; omega, ?_,
      fun _ => e, fun h' => by omega⟩
    rw [e]
    have := le_max_left 1 ((initVariables M o).1.N - 1)
    omega
  · have e : (main_clamp o (initVariables M o).1).number = o.number := by
      simp only [main_clamp, h, if_false]
    refine ⟨hNval, hNle, by rw [e]; exact h1, by rw [e]; exact h2, by rw [e]; omega, ?_,
      fun h' => absurd h' h, fun _ => e⟩
    rw [e]
    omega

theorem C10_clamp_witness :
    (scenario_options 9).interlines ≤ MAX_INTERLINES ∧ 1 ≤ (scenario_options 9).number
    ∧ (scenario_options 9).number ≤ MAX_THREADS
    ∧ (main_clamp (scenario_options 9)
        (initVariables (fun _ _ _ => 0) (scenario_options 9)).1).number = 1 :=
  ⟨by decide, by decide, by decide,
    (C10_clamp (fun _ _ _ => (0 : ℚ)) (scenario_options 9) (by decide) (by decide)
      (by decide)).2.2.2.2.2.2.1 (by decide)⟩

/-- Claim C11: index safety without the precondition `T ≤ N - 1`.  For every `N ≥ 2` and every
thread count `T ≥ 1` (also `T > N - 1`), the range of every thread `t < T` satisfies
`1 ≤ lower ≤ upper ≤ N`; the ranges of `t = 0, ..., T - 1` are pairwise disjoint and cover
exactly the rows `1, ..., N - 1`; when `count = 0` the threads `t ≥ remainder` have an empty
range; and every cell that the loop body touches at a row `i` of the range and a column
`1 ≤ j < N`, at rows `i - 1, i, i + 1` and columns `j - 1, j, j + 1`, has both indices in
`[0, N]` (so the natural-number index `i - 1` of the model is the signed `i - 1`). -/
theorem C11_index_safety (N T : Nat) (hN : 2 ≤ N) (hT : 1 ≤ T) :
    (∀ t, t < T → 1 ≤ lower N T t ∧ lower N T t ≤ upper N T t ∧ upper N T t ≤ N)
    ∧ (∀ i, (∃ t, t < T ∧ lower N T t ≤ i ∧ i < upper N T t) ↔ (1 ≤ i ∧ i ≤ N - 1))
    ∧ (∀ t t' i, t < T → t' < T → t ≠ t' →
        ¬ ((lower N T t ≤ i ∧ i < upper N T t) ∧ (lower N T t' ≤ i ∧ i < upper N T t')))
    ∧ (∀ t, t < T → (N - 1) / T = 0 → (N - 1) % T ≤ t → lower N T t = upper N T t)
    ∧ (∀ t i j, t < T → lower N T t ≤ i → i < upper N T t → 1 ≤ j → j < N →
        (∀ p, p ∈ column_body_accesses (i : Int) (j : Int) →
          0 ≤ p.1 ∧ p.1 ≤ (N : Int) ∧ 0 ≤ p.2 ∧ p.2 ≤ (N : Int))
        ∧ ((i - 1 : Nat) : Int) = (i : Int) - 1 ∧ ((j - 1 : Nat) : Int) = (j : Int) - 1) := by
  have hbound : ∀ t, t < T → 1 ≤ lower N T t ∧ lower N T t ≤ upper N T t ∧ upper N T t ≤ N := by
    intro t ht
    have := upper_le N T t hT ht
    exact ⟨one_le_lower N T t, lower_le_upper N T t, by omega⟩
  refine ⟨hbound, mem_range_iff N T hT, ?_, ?_, ?_⟩
  · rintro t t' i - - hne ⟨⟨h1, h2⟩, h3, h4⟩
    rcases Nat.lt_or_gt_of_ne hne with h | h
    · exact ranges_disjoint N T h i h2 h3
    · exact ranges_disjoint N T h i h4 h1
  · intro t _ hcount hrem
    rw [upper_eq, hcount, if_neg (by omega)]
    omega
  · intro t i j ht hi1 hi2 hj1 hj2
    obtain ⟨hl, -, hu⟩ := hbound t ht
    refine ⟨?_, by omega, by omega⟩
    intro p hp
    simp only [column_body_accesses, List.mem_cons, List.mem_singleton, List.not_mem_nil,
      or_false] at hp
    rcases hp with h | h | h | h | h | h <;> subst h <;> simp only <;> omega

theorem C11_index_safety_witness :
    2 ≤ 8 ∧ 1 ≤ 9
    ∧ (∀ t, t < 9 → 1 ≤ lower 8 9 t ∧ lower 8 9 t ≤ upper 8 9 t ∧ upper 8 9 t ≤ 8)
    ∧ (∀ i, (∃ t, t < 9 ∧ lower 8 9 t ≤ i ∧ i < upper 8 9 t) ↔ (1 ≤ i ∧ i ≤ 8 - 1)) :=
  ⟨by decide, by decide, (C11_index_safety 8 9 (by decide) (by decide)).1,
    (C11_index_safety 8 9 (by decide) (by decide)).2.1⟩

/-- Claim C12: the residual does not grow, in exact arithmetic.  For a matrix whose two slots
hold the same border values, for either interference function (method Jacobi, `T ≥ 1`
threads): (a) for every `k ≥ 1` the global maximum residual of round `k + 1` is at most that
of round `k`; (b) in a run under `TERM_PREC`, where the residuum is computed in every round, a
thread that is still running after round `k ≥ 1` holds after round `k + 1` a residuum that is
at most the one it held after round `k`; (c) `initMatrices` leaves two matrices with the same
border values. -/
theorem C12_residual_monotone (sin : α → α) (M_PI : α) (shared0 : Nat → α)
    (arguments : calculation_arguments α) (o : options α)
    (hmethod : o.method = METH_JACOBI) (hN : 1 ≤ arguments.N) (hT : 1 ≤ o.number)
    (hb : same_border arguments.N arguments.M) :
    (∀ k, 1 ≤ k →
      round_residual sin (calculate_args M_PI arguments o) arguments.M (k + 1)
        ≤ round_residual sin (calculate_args M_PI arguments o) arguments.M k)
    ∧ (o.termination = TERM_PREC → ∀ k t, 1 ≤ k → t < o.number →
      0 < ((rounds residuum_rule.as_written sin (calculate_args M_PI arguments o) k
        (calculate_world shared0 arguments o)).thread t).term_iteration →
      ((rounds residuum_rule.as_written sin (calculate_args M_PI arguments o) (k + 1)
        (calculate_world shared0 arguments o)).thread t).maxresiduum
      ≤ ((rounds residuum_rule.as_written sin (calculate_args M_PI arguments o) k
        (calculate_world shared0 arguments o)).thread t).maxresiduum)
    ∧ (∀ arguments' : calculation_arguments α, 1 ≤ arguments'.N →
      arguments'.num_matrices = 2 → same_border arguments'.N (initMatrices arguments' o).M) := by
  have hmono := round_residual_succ_le sin (calculate_args M_PI arguments o) arguments.M hb
  refine ⟨hmono, ?_, fun arguments' hN' hnum =>
    initMatrices_same_border arguments' o hmethod hT hN' hnum⟩
  intro hterm k t hk ht hrun
  obtain ⟨n, rfl⟩ : ∃ n, k = n + 1 := ⟨k - 1, by omega⟩
  obtain ⟨s1, s2, s3⟩ := calculate_t_init_slots o hmethod
  have hth := fun k => (calculate_rounds residuum_rule.as_written sin M_PI shared0 arguments o
    hmethod hN hT k).2
  rw [hth (n + 1) t ht] at hrun
  have hrun' := lockstep_running_before residuum_rule.as_written sin _ _ _ (n + 1) hrun n
    (by omega)
  have hcomp : ∀ ti, computes_residuum residuum_rule.as_written
      (calculate_args M_PI arguments o).options ti = true := by
    intro ti
    simp [computes_residuum, calculate_args, hterm]
  rw [hth (n + 1 + 1) t ht, hth (n + 1) t ht,
    (lockstep_step residuum_rule.as_written sin _ _ _ s1 s2 s3 (n + 1) hrun).1,
    (lockstep_step residuum_rule.as_written sin _ _ _ s1 s2 s3 n hrun').1, hcomp, hcomp,
    if_pos rfl, if_pos rfl]
  exact hmono (n + 1) (by omega)

theorem C12_residual_monotone_witness :
    (scenario_options_prec 4).method = METH_JACOBI ∧ 1 ≤ (scenario_arguments 4).N
    ∧ 1 ≤ (scenario_options_prec 4).number
    ∧ same_border (scenario_arguments 4).N (scenario_arguments 4).M
    ∧ ∀ k, 1 ≤ k →
      round_residual (fun _ => (0 : ℚ))
          (calculate_args 3 (scenario_arguments 4) (scenario_options_prec 4))
          (scenario_arguments 4).M (k + 1)
        ≤ round_residual (fun _ => (0 : ℚ))
          (calculate_args 3 (scenario_arguments 4) (scenario_options_prec 4))
          (scenario_arguments 4).M k :=
  ⟨rfl, by decide, by decide,
    initMatrices_same_border (initVariables (fun _ _ _ => 0) (scenario_options 4)).1
      (scenario_options 4) rfl (by decide) (by decide) rfl,
    (C12_residual_monotone (fun _ => (0 : ℚ)) 3 (fun _ => 0) (scenario_arguments 4)
      (scenario_options_prec 4) rfl (by decide) (by decide)
      (initMatrices_same_border (initVariables (fun _ _ _ => 0) (scenario_options 4)).1
        (scenario_options 4) rfl (by decide) (by decide) rfl)).1⟩

/-- Claim C13: the bilinear fixed point, in exact arithmetic.  For `N ≥ 2` and `h = 1 / N`
(the spacing that `initVariables` sets), the grid `u[i][j] = 1 - h*i - h*j + 2*h*h*i*j`
has on every border cell the value that `initMatrices` writes there for the interference
function `FUNC_F0`, with the corner values `1, 0, 0, 1`.  When the slot that the first round
reads holds `u` (method Jacobi, `T ≥ 1` threads, at least one round to run), the first round
writes `u[i][j]` into every interior cell of the write slot, the global maximum residual of
the round is `0`, and every thread holds the residuum `0` after the round. -/
theorem C13_bilinear_fixed_point (sin : α → α) (M_PI : α) (shared0 : Nat → α)
    (arguments : calculation_arguments α) (o : options α)
    (hmethod : o.method = METH_JACOBI) (hN : 2 ≤ arguments.N) (hT : 1 ≤ o.number)
    (hf : o.inf_func = FUNC_F0) (hrun : 0 < o.term_iteration)
    (hgrid : ∀ i j, i ≤ arguments.N → j ≤ arguments.N →
      arguments.M 1 i j = bilinear arguments.N i j) :
    (∀ (arguments' : calculation_arguments α) (g i j : Nat), 2 ≤ arguments'.N →
      arguments'.h = 1 / (arguments'.N : α) → g < arguments'.num_matrices →
      i ≤ arguments'.N → j ≤ arguments'.N →
      (i = 0 ∨ i = arguments'.N ∨ j = 0 ∨ j = arguments'.N) →
      (initMatrices arguments' o).M g i j = bilinear arguments'.N i j)
    ∧ (∀ M : matrix α, (initVariables M o).1.h = 1 / ((initVariables M o).1.N : α))
    ∧ ((bilinear arguments.N 0 0 : α) = 1 ∧ (bilinear arguments.N 0 arguments.N : α) = 0
      ∧ (bilinear arguments.N arguments.N 0 : α) = 0
      ∧ (bilinear arguments.N arguments.N arguments.N : α) = 1)
    ∧ (∀ i j, 1 ≤ i ∧ i < arguments.N → 1 ≤ j ∧ j < arguments.N →
      (rounds residuum_rule.as_written sin (calculate_args M_PI arguments o) 1
        (calculate_world shared0 arguments o)).Matrix 0 i j = bilinear arguments.N i j)
    ∧ round_residual sin (calculate_args M_PI arguments o) arguments.M 1 = 0
    ∧ (∀ t, t < o.number →
      ((rounds residuum_rule.as_written sin (calculate_args M_PI arguments o) 1
        (calculate_world shared0 arguments o)).thread t).maxresiduum = 0) := by
  have hN1 : 1 ≤ arguments.N := by omega
  have hfa : (calculate_args M_PI arguments o).options.inf_func ≠ FUNC_FPISIN := by
    show o.inf_func ≠ FUNC_FPISIN
    rw [hf]; decide
  obtain ⟨s1, s2, s3⟩ := calculate_t_init_slots o hmethod
  obtain ⟨hM, hth⟩ := calculate_rounds residuum_rule.as_written sin M_PI shared0 arguments o
    hmethod hN1 hT 1
  have hrun0 : 0 < (lockstep residuum_rule.as_written sin (calculate_args M_PI arguments o)
      arguments.M (calculate_t_init o) 0).2.term_iteration := hrun
  obtain ⟨rM, -, -, -⟩ := lockstep_running residuum_rule.as_written sin
    (calculate_args M_PI arguments o) arguments.M (calculate_t_init o) s1 s2 s3 1
    (fun i hi => by
      have : i = 0 := by omega
      rw [this]; exact hrun0)
  have hres : round_residual sin (calculate_args M_PI arguments o) arguments.M 1 = 0 :=
    reference_residual_bilinear sin (calculate_args M_PI arguments o) hfa arguments.M 1 hgrid
  refine ⟨?_, fun _ => rfl, bilinear_corners arguments.N hN1, ?_, hres, ?_⟩
  · intro arguments' g i j hN' hh hg hi hj hb
    rw [initMatrices_border_cells arguments' o (by omega) hf g i j hg hi hj hb, hh]
    exact border_value_eq_bilinear arguments'.N (by omega) i j hb
  · intro i j hi hj
    rw [hM, rM]
    simp only [jacobi, reference_sweep]
    rw [if_pos ⟨trivial, hi.1, hi.2, hj.1, hj.2⟩]
    exact reference_star_bilinear sin (calculate_args M_PI arguments o) hfa arguments.M 1 hgrid
      i j hi hj
  · intro t ht
    rw [hth t ht,
      (lockstep_step residuum_rule.as_written sin _ _ _ s1 s2 s3 0 hrun0).1, hres]
    split_ifs <;> rfl

theorem C13_bilinear_fixed_point_witness :
    (scenario_options 4).method = METH_JACOBI ∧ 2 ≤ scenario_arguments_bilinear.N
    ∧ 1 ≤ (scenario_options 4).number ∧ (scenario_options 4).inf_func = FUNC_F0
    ∧ 0 < (scenario_options 4).term_iteration
    ∧ (∀ i j, i ≤ scenario_arguments_bilinear.N → j ≤ scenario_arguments_bilinear.N →
        scenario_arguments_bilinear.M 1 i j = bilinear scenario_arguments_bilinear.N i j)
    ∧ round_residual (fun _ => (0 : ℚ))
        (calculate_args 3 scenario_arguments_bilinear (scenario_options 4))
        scenario_arguments_bilinear.M 1 = 0 :=
  ⟨rfl, by decide, by decide, rfl, by decide,
    fun _ _ _ _ => rfl,
    (C13_bilinear_fixed_point (fun _ => (0 : ℚ)) 3 (fun _ => 0) scenario_arguments_bilinear
      (scenario_options 4) rfl (by decide) (by decide) rfl (by decide)
      (fun _ _ _ _ => rfl)).2.2.2.2.1⟩

end claims

end Partdiff
